import Mathlib

/-!
# Tic-Tac-Toe engine

A shallow embedding of `Task3 (Tic-Tac-Toe)/TicTacToe.cpp` and the properties of its
board, move and win/draw logic.

* `char board[3][3]` is a function `Fin 3 → Fin 3 → Char`; an access through run-time `int`
  indices goes through `readCell` / `writeCell`, which answer `none` outside the array.
* `int` values are `Int`; `/` and `%` of C++ are `Int.tdiv` and `Int.tmod`.
* A member function that mutates the object takes the state and returns the new state.
* What a function writes to `cout` is returned as a `String`.
* `cin` is a list of read attempts, `none` for an extraction that fails.
-/

/-- The array `char board[3][3]`. -/
abbrev Board := Fin 3 → Fin 3 → Char

/-- The read `board[row][col]` with `int` indices; `none` when the access leaves the array. -/
def readCell (b : Board) (row col : Int) : Option Char :=
  if h : 0 ≤ row ∧ row < 3 ∧ 0 ≤ col ∧ col < 3 then
    some (b ⟨row.toNat, by omega⟩ ⟨col.toNat, by omega⟩)
  else none

/-- The board after `board[i][j] = c`. -/
def setCell (b : Board) (i j : Fin 3) (c : Char) : Board :=
  fun i2 j2 => if i2 = i ∧ j2 = j then c else b i2 j2

/-- The write `board[row][col] = c` with `int` indices; `none` when the access leaves the array. -/
def writeCell (b : Board) (row col : Int) (c : Char) : Option Board :=
  if h : 0 ≤ row ∧ row < 3 ∧ 0 ≤ col ∧ col < 3 then
    some (setCell b ⟨row.toNat, by omega⟩ ⟨col.toNat, by omega⟩ c)
  else none

/-- The data members of `class TicTacToe`. -/
structure TicTacToe where
  board : Board
  currentPlayer : Char
  gameEnded : Bool

namespace MoveValidator

/-- The text `getMove` prints after a failed or out-of-range read. -/
def retryText : String := "Please enter a number between 1 and 9.\n"

/-- `MoveValidator::getMove`: each element of the input is one `cin >> move`, `none` when the
extraction fails. The result is the move, the input left, and the text printed; `none` when the
input runs out, where the source keeps looping. -/
def getMove (prompt : String) : List (Option Int) → Option (Int × List (Option Int) × String)
  | [] => none
  | none :: rest =>
    match getMove prompt rest with
    | none => none
    | some (move, left, out) => some (move, left, prompt ++ retryText ++ out)
  | some move :: rest =>
    if move < 1 ∨ move > 9 then
      match getMove prompt rest with
      | none => none
      | some (move2, left, out) => some (move2, left, prompt ++ retryText ++ out)
    else some (move, rest, prompt)

end MoveValidator

namespace TicTacToe

/-- One pass of the inner loop of `resetBoard`: `board[i][j] = '0' + num++` for `j = 0, 1, 2`. -/
def resetRow (i : Fin 3) (acc : Board × Nat) : Board × Nat :=
  ([0, 1, 2] : List (Fin 3)).foldl
    (fun a j => (setCell a.1 i j (Char.ofNat ('0'.toNat + a.2)), a.2 + 1)) acc

/-- `TicTacToe::resetBoard`. -/
def resetBoard (s : TicTacToe) : TicTacToe :=
  { board := (([0, 1, 2] : List (Fin 3)).foldl (fun a i => resetRow i a) (s.board, 1)).1
    currentPlayer := 'X'
    gameEnded := false }

/-- The constructor `TicTacToe()`: `resetBoard` on an object whose members hold anything. -/
def new (uninit : TicTacToe) : TicTacToe := resetBoard uninit

/-- The state a `TicTacToe game;` starts in. -/
def initial : TicTacToe := new ⟨fun _ _ => ' ', ' ', false⟩

/-- One line of `showBoard`. -/
def showRow (b : Board) (i : Fin 3) : String :=
  " " ++ String.singleton (b i 0) ++ " | " ++ String.singleton (b i 1) ++ " | "
    ++ String.singleton (b i 2) ++ "\n" ++ (if i.val < 2 then "---+---+---\n" else "")

/-- `TicTacToe::showBoard`: the text printed. -/
def showBoard (s : TicTacToe) : String :=
  "\n" ++ ([0, 1, 2] : List (Fin 3)).foldl (fun out i => out ++ showRow s.board i) "" ++ "\n"

/-- `TicTacToe::getMoveCoordinates`: `none` is the return value `false`, `some (row, col)` the
return value `true` with the two out-parameters. -/
def getMoveCoordinates (move : Int) : Option (Int × Int) :=
  if move < 1 ∨ move > 9 then none
  else some (Int.tdiv (move - 1) 3, Int.tmod (move - 1) 3)

/-- `TicTacToe::isMoveValid`; `none` when the board is read outside the array. -/
def isMoveValid (s : TicTacToe) (move : Int) : Option Bool :=
  match getMoveCoordinates move with
  | none => some false
  | some (row, col) =>
    match readCell s.board row col with
    | none => none
    | some c => some (c != 'X' && c != 'O')

/-- The text `makeMove` prints when `isMoveValid` fails. -/
def takenText : String := "That spot’s already taken or invalid. Try again!\n"

/-- `TicTacToe::makeMove`: the return value, the object afterwards and the text printed; `none`
when the board is accessed outside the array. -/
def makeMove (s : TicTacToe) (move : Int) : Option (Bool × TicTacToe × String) :=
  match getMoveCoordinates move with
  | none => some (false, s, "")
  | some (row, col) =>
    match isMoveValid s move with
    | none => none
    | some false => some (false, s, takenText)
    | some true =>
      match writeCell s.board row col s.currentPlayer with
      | none => none
      | some b => some (true, { s with board := b }, "")

/-- `TicTacToe::checkWin`. -/
def checkWin (s : TicTacToe) : Bool :=
  ([0, 1, 2] : List (Fin 3)).any (fun i =>
    s.board i 0 == s.currentPlayer && s.board i 1 == s.currentPlayer
      && s.board i 2 == s.currentPlayer)
  || ([0, 1, 2] : List (Fin 3)).any (fun j =>
    s.board 0 j == s.currentPlayer && s.board 1 j == s.currentPlayer
      && s.board 2 j == s.currentPlayer)
  || (s.board 0 0 == s.currentPlayer && s.board 1 1 == s.currentPlayer
      && s.board 2 2 == s.currentPlayer)
  || (s.board 0 2 == s.currentPlayer && s.board 1 1 == s.currentPlayer
      && s.board 2 0 == s.currentPlayer)

/-- `TicTacToe::checkDraw`. -/
def checkDraw (s : TicTacToe) : Bool :=
  ([0, 1, 2] : List (Fin 3)).all (fun i =>
    ([0, 1, 2] : List (Fin 3)).all (fun j => !(s.board i j != 'X' && s.board i j != 'O')))

/-- `TicTacToe::switchPlayer`. -/
def switchPlayer (s : TicTacToe) : TicTacToe :=
  { s with currentPlayer := if s.currentPlayer = 'X' then 'O' else 'X' }

/-- The text of the win branch of `showResult`. -/
def winText (p : Char) : String := "Player " ++ String.singleton p ++ " wins! Great game!\n"

/-- The text of the tie branch of `showResult`. -/
def tieText : String := "It’s a tie! Well played, both of you!\n"

/-- `TicTacToe::showResult`: the text printed. -/
def showResult (s : TicTacToe) : String :=
  if checkWin s then winText s.currentPlayer
  else if checkDraw s then tieText
  else ""

/-- The body of the `while` loop of `play` once `getMove` has returned `move`: the object
afterwards and the text printed; `none` when the board is accessed outside the array. -/
def playStep (s : TicTacToe) (move : Int) : Option (TicTacToe × String) :=
  match makeMove s move with
  | none => none
  | some (true, s1, out) =>
    if checkWin s1 || checkDraw s1 then
      some ({ s1 with gameEnded := true }, out ++ "Nice move!\n" ++ showBoard s1 ++ showResult s1)
    else
      some (switchPlayer s1, out ++ "Nice move!\n" ++ showBoard s1)
  | some (false, s1, out) => some (s1, out ++ showBoard s1)

/-- The prompt `play` hands to `getMove`. -/
def promptText (s : TicTacToe) : String :=
  "Player " ++ String.singleton s.currentPlayer ++ ", enter your move (1-9): "

/-- `TicTacToe::play` on the console input `input`: the object when the loop exits and the text
printed; `none` when the input runs out before the game has ended (the source then never
returns) or the board is accessed outside the array. -/
def play (s : TicTacToe) (input : List (Option Int)) : Option (TicTacToe × String) :=
  if s.gameEnded then some (s, "")
  else
    match h : MoveValidator.getMove (promptText s) input with
    | none => none
    | some (move, left, out1) =>
      match playStep s move with
      | none => none
      | some (s1, out2) =>
        match play s1 left with
        | none => none
        | some (s2, out3) => some (s2, out1 ++ out2 ++ out3)
termination_by input.length
decreasing_by
  generalize promptText s = prompt at h
  induction input generalizing move out1 with
  | nil => simp [MoveValidator.getMove] at h
  | cons a rest ih =>
    cases a with
    | none =>
      simp only [MoveValidator.getMove] at h
      split at h
      · simp at h
      · rename_i m l o heq
        simp only [Option.some.injEq, Prod.mk.injEq] at h
        obtain ⟨rfl, rfl, _⟩ := h
        have := ih m o heq
        simp only [List.length_cons]; omega
    | some v =>
      simp only [MoveValidator.getMove] at h
      split at h
      · split at h
        · simp at h
        · rename_i m l o heq
          simp only [Option.some.injEq, Prod.mk.injEq] at h
          obtain ⟨rfl, rfl, _⟩ := h
          have := ih m o heq
          simp only [List.length_cons]; omega
      · simp only [Option.some.injEq, Prod.mk.injEq] at h
        obtain ⟨rfl, rfl, _⟩ := h
        simp

/-- Whether `makeMove` accepts `move` in state `s`, that is, returns `true`. -/
def accepted (s : TicTacToe) (move : Int) : Bool :=
  match makeMove s move with
  | some (true, _, _) => true
  | _ => false

/-- The loop of `play` fed with the moves `getMove` returns, in order: the object once the
moves are used up or the loop has exited, and the number of moves `makeMove` accepted. A move
is only asked for while `gameEnded` is false. -/
def runMoves : TicTacToe → List Int → Option (TicTacToe × Nat)
  | s, [] => some (s, 0)
  | s, move :: rest =>
    if s.gameEnded then some (s, 0)
    else
      match playStep s move with
      | none => none
      | some (s1, _) =>
        match runMoves s1 rest with
        | none => none
        | some (s2, k) => some (s2, k + (if accepted s move then 1 else 0))

end TicTacToe

/-! ## Vocabulary of the properties -/

/-- The eight lines of the grid as (row, column) triples: rows 0-2, columns 0-2, the main
diagonal and the anti-diagonal. -/
def winLines : List (List (Fin 3 × Fin 3)) :=
  [ [(0, 0), (0, 1), (0, 2)], [(1, 0), (1, 1), (1, 2)], [(2, 0), (2, 1), (2, 2)],
    [(0, 0), (1, 0), (2, 0)], [(0, 1), (1, 1), (2, 1)], [(0, 2), (1, 2), (2, 2)],
    [(0, 0), (1, 1), (2, 2)], [(0, 2), (1, 1), (2, 0)] ]

/-- The object after the assignment `board[i][j] = currentPlayer` of `makeMove`. -/
def placeMark (s : TicTacToe) (i j : Fin 3) : TicTacToe :=
  { s with board := setCell s.board i j s.currentPlayer }

/-- The object after the assignment `gameEnded = true` of `play`. -/
def endGame (s : TicTacToe) : TicTacToe := { s with gameEnded := true }

/-- The cell that position number `move` addresses, through `getMoveCoordinates`. -/
def cellOfPos (b : Board) (move : Int) : Option Char :=
  match TicTacToe.getMoveCoordinates move with
  | none => none
  | some (row, col) => readCell b row col

/-- A board written out row by row, as in `boardOfString "XO3456789"`. -/
def boardOfString (t : String) : Board :=
  fun i j => t.data.getD (3 * i.val + j.val) ' '

/-- The nine cells of a board read row by row, the inverse of `boardOfString`. -/
def cells (b : Board) : String :=
  String.mk [b 0 0, b 0 1, b 0 2, b 1 0, b 1 1, b 1 2, b 2 0, b 2 1, b 2 2]

/-- What `runMoves` returns, with the board written out: the cells, `currentPlayer`,
`gameEnded`, and the number of accepted moves. -/
def view (r : TicTacToe × Nat) : String × Char × Bool × Nat :=
  (cells r.1.board, r.1.currentPlayer, r.1.gameEnded, r.2)

/-- The nine cells of the grid, row by row. -/
def allCells : List (Fin 3 × Fin 3) :=
  [(0, 0), (0, 1), (0, 2), (1, 0), (1, 1), (1, 2), (2, 0), (2, 1), (2, 2)]

/-- The number of cells that hold the mark `m`. -/
def countMark (b : Board) (m : Char) : Nat :=
  (allCells.map fun c => if b c.1 c.2 = m then 1 else 0).sum

/-- The number of marked cells: those that hold `X` or `O`. -/
def markCount (b : Board) : Nat :=
  (allCells.map fun c => if b c.1 c.2 = 'X' ∨ b c.1 c.2 = 'O' then 1 else 0).sum

/-- Whether some line of the grid is filled with the mark `m`. -/
def hasLine (b : Board) (m : Char) : Bool :=
  winLines.any fun l => l.all fun c => b c.1 c.2 == m

/-- The player who is not `p`, computed as in `switchPlayer`. -/
def otherPlayer (p : Char) : Char := if p = 'X' then 'O' else 'X'

/-- What holds of every state the loop of `play` passes through from the initial state: `X` or
`O` is the current player and the other player has no complete line; while the game has not
ended nobody has a complete line, the board is not full, and X has as many marks as O when X
is to move and one more when O is; once the game has ended the current player is the one who
moved last, so X has one more mark than O when it is X and as many when it is O, and the
board shows a win for the current player or is full. -/
def Consistent (s : TicTacToe) : Prop :=
  (s.currentPlayer = 'X' ∨ s.currentPlayer = 'O')
  ∧ hasLine s.board (otherPlayer s.currentPlayer) = false
  ∧ (s.gameEnded = false →
      hasLine s.board s.currentPlayer = false ∧ TicTacToe.checkDraw s = false
      ∧ countMark s.board 'X'
          = countMark s.board 'O' + (if s.currentPlayer = 'X' then 0 else 1))
  ∧ (s.gameEnded = true →
      (TicTacToe.checkWin s = true ∨ TicTacToe.checkDraw s = true)
      ∧ countMark s.board 'X'
          = countMark s.board 'O' + (if s.currentPlayer = 'X' then 1 else 0))

/-- X holds 1 and 5, O holds 2 and 4, X is to move: the diagonal 1/5/9 lacks only cell 9. -/
def diagonalPending : TicTacToe :=
  { board := boardOfString "XO3OX6789", currentPlayer := 'X', gameEnded := false }

/-- The state the game 1, 2, 5, 3, 9 ends in: X has won on the diagonal 1/5/9 and the cells
4, 6, 7 and 8 are still empty. -/
def wonByX : TicTacToe :=
  { board := boardOfString "XOO4X678X", currentPlayer := 'X', gameEnded := true }

/-- X has played 1, 3, 4, 8 and O has played 2, 5, 6, 7: only cell 9 is empty, X is to move,
and no mark in cell 9 completes a line. -/
def lastCellPending : TicTacToe :=
  { board := boardOfString "XOXXOOOX9", currentPlayer := 'X', gameEnded := false }

/-- A full board on which X has just completed the diagonal 1/5/9 with its fifth mark. -/
def fullBoardWon : TicTacToe :=
  { board := boardOfString "XOXOXOOXX", currentPlayer := 'X', gameEnded := false }

/-- The state before `fullBoardWon`: only cell 9 is empty and X, to move, holds 1 and 5. -/
def fullBoardPending : TicTacToe :=
  { board := boardOfString "XOXOXOOX9", currentPlayer := 'X', gameEnded := false }

/-- The state the game 1, 2, 3, 4, 5, 6, 7 ends in: X has won on the anti-diagonal 3/5/7 and
the cells 8 and 9 are still empty. -/
def wonOnAntiDiagonal : TicTacToe :=
  { board := boardOfString "XOXOXOX89", currentPlayer := 'X', gameEnded := true }

/-- The state the game 1, 2, 3, 5, 4, 6, 8, 7, 9 ends in: the board is full and no line is
complete. -/
def drawnGame : TicTacToe :=
  { board := boardOfString "XOXXOOOXX", currentPlayer := 'X', gameEnded := true }

/-- The digit `resetBoard` writes into the cell of position number `n`: `'0' + n`. -/
def digitOf (n : Int) : Char := Char.ofNat ('0'.toNat + n.toNat)

/-- The positions `getMove` hands to `play` from a console input, in order: the integers from
1 to 9 among the read attempts. -/
def validMoves : List (Option Int) → List Int
  | [] => []
  | none :: rest => validMoves rest
  | some m :: rest => if m < 1 ∨ m > 9 then validMoves rest else m :: validMoves rest

/-! ## Basic facts about the board accesses and the move functions -/

open TicTacToe

/-- Two states with the same cells, player and flag are equal. -/
theorem state_ext (a b : TicTacToe) (hb : ∀ i j, a.board i j = b.board i j)
    (hc : a.currentPlayer = b.currentPlayer) (hg : a.gameEnded = b.gameEnded) : a = b := by
  cases a with
  | mk ab ac ag =>
    cases b with
    | mk bb bc bg =>
      have hbb : ab = bb := funext fun i => funext fun j => hb i j
      simp only at hc hg
      subst hbb hc hg
      rfl

/-- What `resetBoard` leaves in each cell: the digit of its position number. -/
theorem resetBoard_board (s : TicTacToe) (i j : Fin 3) :
    (resetBoard s).board i j = Char.ofNat ('0'.toNat + (3 * i.val + j.val + 1)) := by
  simp only [resetBoard, resetRow, List.foldl_cons, List.foldl_nil, setCell]
  fin_cases i <;> fin_cases j <;> simp

/-- The constructor gives the same state whatever the members held before. -/
theorem new_eq_initial (uninit : TicTacToe) : new uninit = initial := by
  refine state_ext (new uninit) initial (fun i j => ?_) rfl rfl
  simp only [new, initial, resetBoard_board]

theorem readCell_cast (b : Board) (i j : Fin 3) :
    readCell b (i.val : Int) (j.val : Int) = some (b i j) := by
  have hi := i.isLt
  have hj := j.isLt
  simp [readCell]

theorem writeCell_cast (b : Board) (i j : Fin 3) (c : Char) :
    writeCell b (i.val : Int) (j.val : Int) c = some (setCell b i j c) := by
  have hi := i.isLt
  have hj := j.isLt
  simp [writeCell]

/-- Every position from 1 to 9 is mapped to a cell of the grid. -/
theorem getMoveCoordinates_range (n : Int) (h1 : 1 ≤ n) (h9 : n ≤ 9) :
    ∃ i j : Fin 3, getMoveCoordinates n = some ((i.val : Int), (j.val : Int)) := by
  interval_cases n
  · exact ⟨0, 0, by decide⟩
  · exact ⟨0, 1, by decide⟩
  · exact ⟨0, 2, by decide⟩
  · exact ⟨1, 0, by decide⟩
  · exact ⟨1, 1, by decide⟩
  · exact ⟨1, 2, by decide⟩
  · exact ⟨2, 0, by decide⟩
  · exact ⟨2, 1, by decide⟩
  · exact ⟨2, 2, by decide⟩

theorem getMoveCoordinates_none (n : Int) (h : n < 1 ∨ n > 9) : getMoveCoordinates n = none := by
  simp [getMoveCoordinates, h]

/-- What `makeMove` does at a position that addresses the cell `(i, j)`. -/
theorem makeMove_cell (s : TicTacToe) (n : Int) (i j : Fin 3)
    (h : getMoveCoordinates n = some ((i.val : Int), (j.val : Int))) :
    makeMove s n =
      if s.board i j ≠ 'X' ∧ s.board i j ≠ 'O' then some (true, placeMark s i j, "")
      else some (false, s, takenText) := by
  simp only [makeMove, isMoveValid, h, readCell_cast, writeCell_cast, placeMark]
  by_cases hx : s.board i j = 'X'
  · simp [hx]
  · by_cases ho : s.board i j = 'O'
    · simp [ho]
    · have hb : (s.board i j != 'X' && s.board i j != 'O') = true := by simp [hx, ho]
      simp [hx, ho, hb]

theorem makeMove_none (s : TicTacToe) (n : Int) (h : n < 1 ∨ n > 9) :
    makeMove s n = some (false, s, "") := by
  simp [makeMove, getMoveCoordinates_none n h]

theorem cellOfPos_cell (b : Board) (n : Int) (i j : Fin 3)
    (h : getMoveCoordinates n = some ((i.val : Int), (j.val : Int))) :
    cellOfPos b n = some (b i j) := by
  simp [cellOfPos, h, readCell_cast]

theorem winText_ne_tieText (p : Char) : winText p ≠ tieText := by
  intro h
  have := congrArg String.data h
  simp [winText, tieText] at this

theorem winText_ne_empty (p : Char) : winText p ≠ "" := by
  intro h
  have := congrArg String.data h
  simp [winText] at this

/-- What the loop body does when `makeMove` accepts: the mark is placed, then either the game
ends or the turn passes. -/
theorem playStep_accept (s : TicTacToe) (n : Int) (i j : Fin 3)
    (h : getMoveCoordinates n = some ((i.val : Int), (j.val : Int)))
    (he : s.board i j ≠ 'X' ∧ s.board i j ≠ 'O') :
    playStep s n =
      if checkWin (placeMark s i j) || checkDraw (placeMark s i j) then
        some (endGame (placeMark s i j),
          "Nice move!\n" ++ showBoard (placeMark s i j) ++ showResult (placeMark s i j))
      else
        some (switchPlayer (placeMark s i j), "Nice move!\n" ++ showBoard (placeMark s i j)) := by
  simp only [playStep, makeMove_cell s n i j h, he, ne_eq, not_false_eq_true, and_self, if_true,
    String.empty_append, endGame]

/-- What the loop body does when `makeMove` refuses an occupied cell. -/
theorem playStep_reject (s : TicTacToe) (n : Int) (i j : Fin 3)
    (h : getMoveCoordinates n = some ((i.val : Int), (j.val : Int)))
    (he : s.board i j = 'X' ∨ s.board i j = 'O') :
    playStep s n = some (s, takenText ++ showBoard s) := by
  have : ¬ (s.board i j ≠ 'X' ∧ s.board i j ≠ 'O') := by
    rcases he with he | he <;> simp [he]
  simp only [playStep, makeMove_cell s n i j h, this, if_false]

/-- `checkWin` unfolded: one of the eight lines is filled with the current player's mark. -/
theorem checkWin_lines (s : TicTacToe) :
    checkWin s = true ↔
      ∃ l ∈ winLines, ∀ c ∈ l, s.board c.1 c.2 = s.currentPlayer := by
  simp only [checkWin, winLines, List.any_cons, List.any_nil, Bool.or_false, Bool.or_eq_true,
    Bool.and_eq_true, beq_iff_eq, List.mem_cons, List.mem_singleton, List.not_mem_nil, or_false,
    exists_eq_or_imp, forall_eq_or_imp, exists_eq_left, forall_eq, and_assoc, or_assoc]

/-! ## The claims -/

/-- C1: for every board and current player, `checkWin` is true exactly when one of the eight
lines (three rows, three columns, two diagonals) has all three cells equal to the current
player's mark. -/
theorem checkWin_iff_line (s : TicTacToe) :
    checkWin s = true ↔
      ∃ l ∈ winLines, ∀ c ∈ l, s.board c.1 c.2 = s.currentPlayer := by
  simp only [checkWin, winLines, List.any_cons, List.any_nil, Bool.or_false, Bool.or_eq_true,
    Bool.and_eq_true, beq_iff_eq, List.mem_cons, List.mem_singleton, List.not_mem_nil, or_false,
    exists_eq_or_imp, forall_eq_or_imp, exists_eq_left, forall_eq, and_assoc, or_assoc]

/-- C2: for each of the eight lines and each player P, in a state that has not ended where P is
to move, the cell of position `n` on the line is empty and the two other cells of the line hold
P, the loop body with position `n` places P there, sets `gameEnded`, leaves `currentPlayer`
equal to P, and `showResult` prints the line of the win branch for P. -/
theorem playStep_completes_line (s : TicTacToe) (l : List (Fin 3 × Fin 3)) (c : Fin 3 × Fin 3)
    (n : Int) (P : Char)
    (hl : l ∈ winLines) (_hc : c ∈ l) (_hP : P = 'X' ∨ P = 'O')
    (_hrun : s.gameEnded = false) (hcur : s.currentPlayer = P)
    (hn : getMoveCoordinates n = some ((c.1.val : Int), (c.2.val : Int)))
    (hempty : s.board c.1 c.2 ≠ 'X' ∧ s.board c.1 c.2 ≠ 'O')
    (hothers : ∀ d ∈ l, d ≠ c → s.board d.1 d.2 = P) :
    ∃ s1 out, playStep s n = some (s1, out) ∧ s1.gameEnded = true ∧ s1.currentPlayer = P
      ∧ s1.board = setCell s.board c.1 c.2 P ∧ checkWin s1 = true
      ∧ showResult s1 = winText P ∧ showResult s1 ≠ tieText
      ∧ out = "Nice move!\n" ++ showBoard s1 ++ winText P := by
  subst hcur
  have hwin : checkWin (placeMark s c.1 c.2) = true := by
    rw [checkWin_lines]
    refine ⟨l, hl, fun d hd => ?_⟩
    by_cases hdc : d = c
    · subst hdc; simp [placeMark, setCell]
    · have hne : ¬ (d.1 = c.1 ∧ d.2 = c.2) := fun h => hdc (Prod.ext h.1 h.2)
      simp only [placeMark, setCell, hne, if_false]
      exact hothers d hd hdc
  have hres : showResult (placeMark s c.1 c.2) = winText s.currentPlayer := by
    simp only [showResult, hwin, if_true]
    rfl
  have hstep := playStep_accept s n c.1 c.2 hn hempty
  simp only [hwin, Bool.true_or, if_true, hres] at hstep
  exact ⟨_, _, hstep, rfl, rfl, rfl, hwin, hres, hres ▸ winText_ne_tieText _, rfl⟩

/-- C2 at the diagonal 1/5/9: X holds 1 and 5 and plays 9. -/
theorem playStep_completes_line_witness :
    diagonalPending.gameEnded = false ∧ diagonalPending.currentPlayer = 'X'
      ∧ getMoveCoordinates 9 = some (2, 2)
      ∧ ∃ s1 out, playStep diagonalPending 9 = some (s1, out) ∧ s1.gameEnded = true
        ∧ s1.currentPlayer = 'X' ∧ s1.board = setCell diagonalPending.board 2 2 'X'
        ∧ checkWin s1 = true ∧ showResult s1 = winText 'X' ∧ showResult s1 ≠ tieText
        ∧ out = "Nice move!\n" ++ showBoard s1 ++ winText 'X' :=
  ⟨rfl, rfl, by decide,
    playStep_completes_line diagonalPending [(0, 0), (1, 1), (2, 2)] (2, 2) 9 'X'
      (by decide) (by decide) (by decide) rfl rfl (by decide) (by decide) (by decide)⟩

/-- C3: for every state and every position `n` from 1 to 9 whose cell already holds `X` or `O`,
`makeMove` returns false with the spot-taken message and changes nothing, and the loop body
leaves the board, `currentPlayer` and `gameEnded` as they were. -/
theorem makeMove_occupied_rejected (s : TicTacToe) (n : Int) (h1 : 1 ≤ n) (h9 : n ≤ 9)
    (hocc : cellOfPos s.board n = some 'X' ∨ cellOfPos s.board n = some 'O') :
    makeMove s n = some (false, s, takenText)
      ∧ playStep s n = some (s, takenText ++ showBoard s) := by
  obtain ⟨i, j, hij⟩ := getMoveCoordinates_range n h1 h9
  rw [cellOfPos_cell s.board n i j hij] at hocc
  have hocc2 : s.board i j = 'X' ∨ s.board i j = 'O' := by
    rcases hocc with h | h
    · exact Or.inl (Option.some.inj h)
    · exact Or.inr (Option.some.inj h)
  refine ⟨?_, playStep_reject s n i j hij hocc2⟩
  have : ¬ (s.board i j ≠ 'X' ∧ s.board i j ≠ 'O') := by
    rcases hocc2 with he | he <;> simp [he]
  rw [makeMove_cell s n i j hij, if_neg this]

/-- C3 on the state where X holds 1 and 5 and O holds 2 and 4: position 5 is refused. -/
theorem makeMove_occupied_rejected_witness :
    cellOfPos diagonalPending.board 5 = some 'X'
      ∧ makeMove diagonalPending 5 = some (false, diagonalPending, takenText)
      ∧ playStep diagonalPending 5
          = some (diagonalPending, takenText ++ showBoard diagonalPending) :=
  ⟨by decide,
    makeMove_occupied_rejected diagonalPending 5 (by decide) (by decide) (Or.inl (by decide))⟩

/-- C4: for every state and every integer `n` below 1 or above 9, `getMoveCoordinates` returns
false, `isMoveValid` and `makeMove` return false, and the board, `currentPlayer` and
`gameEnded` are unchanged, by `makeMove` and by the loop body. -/
theorem makeMove_out_of_range_rejected (s : TicTacToe) (n : Int) (h : n < 1 ∨ n > 9) :
    getMoveCoordinates n = none ∧ isMoveValid s n = some false
      ∧ makeMove s n = some (false, s, "")
      ∧ playStep s n = some (s, showBoard s) := by
  have hc := getMoveCoordinates_none n h
  refine ⟨hc, by simp [isMoveValid, hc], makeMove_none s n h, ?_⟩
  simp only [playStep, makeMove_none s n h, String.empty_append]

/-- C4 at positions 0 and 10 on the fresh board. -/
theorem makeMove_out_of_range_rejected_witness :
    (getMoveCoordinates 0 = none ∧ isMoveValid initial 0 = some false
      ∧ makeMove initial 0 = some (false, initial, "")
      ∧ playStep initial 0 = some (initial, showBoard initial))
    ∧ (getMoveCoordinates 10 = none ∧ isMoveValid initial 10 = some false
      ∧ makeMove initial 10 = some (false, initial, "")
      ∧ playStep initial 10 = some (initial, showBoard initial)) :=
  ⟨makeMove_out_of_range_rejected initial 0 (Or.inl (by decide)),
    makeMove_out_of_range_rejected initial 10 (Or.inr (by decide))⟩

/-- C5, as stated, fails: `makeMove` does not look at `gameEnded`. In the state where X has won
with cells left empty, position 4 is accepted and the board is written. -/
theorem makeMove_ignores_gameEnded :
    wonByX.gameEnded = true ∧ checkWin wonByX = true
      ∧ makeMove wonByX 4
          = some (true, { wonByX with board := setCell wonByX.board 1 0 'X' }, "")
      ∧ setCell wonByX.board 1 0 'X' 1 0 = 'X' ∧ wonByX.board 1 0 = '4' := by
  refine ⟨rfl, by decide, ?_, by decide, by decide⟩
  rw [makeMove_cell wonByX 4 1 0 (by decide), if_pos (by decide)]
  rfl

/-- C5, amended: once `gameEnded` is true the loop of `play` exits at once, whatever the input
holds: nothing is read or printed, `makeMove` is not called, and the board, `currentPlayer` and
`gameEnded` are unchanged. -/
theorem play_after_game_over (s : TicTacToe) (input : List (Option Int))
    (h : s.gameEnded = true) : play s input = some (s, "") := by
  rw [play]
  simp only [h, if_true]

/-- C5, amended, in the state where X has won, with position 4 waiting in the input. -/
theorem play_after_game_over_witness :
    wonByX.gameEnded = true ∧ play wonByX [some 4] = some (wonByX, "") :=
  ⟨rfl, play_after_game_over wonByX [some 4] rfl⟩

/-- A full board makes `checkDraw` true. -/
theorem checkDraw_of_full (s : TicTacToe)
    (hfull : ∀ i j, s.board i j = 'X' ∨ s.board i j = 'O') : checkDraw s = true := by
  simp only [checkDraw, List.all_cons, List.all_nil, Bool.and_true, Bool.and_eq_true,
    Bool.not_eq_true', Bool.and_eq_false_iff, bne_eq_false_iff_eq]
  exact ⟨⟨hfull 0 0, hfull 0 1, hfull 0 2⟩, ⟨hfull 1 0, hfull 1 1, hfull 1 2⟩,
    ⟨hfull 2 0, hfull 2 1, hfull 2 2⟩⟩

/-- C6: in a state that has not ended, when position `n` addresses an empty cell and placing
the current player's mark there gives a full board (so that cell was the only empty one) on
which no line is all `X` or all `O`, the loop body with position `n` sets `gameEnded` and
`showResult` prints the tie line, not the win line. -/
theorem playStep_last_cell_draw (s : TicTacToe) (n : Int) (i j : Fin 3)
    (_hrun : s.gameEnded = false)
    (hn : getMoveCoordinates n = some ((i.val : Int), (j.val : Int)))
    (hempty : s.board i j ≠ 'X' ∧ s.board i j ≠ 'O')
    (hfull : ∀ i2 j2, setCell s.board i j s.currentPlayer i2 j2 = 'X'
      ∨ setCell s.board i j s.currentPlayer i2 j2 = 'O')
    (hnoline : ∀ l ∈ winLines, ∀ m ∈ ['X', 'O'],
      ¬ ∀ c ∈ l, setCell s.board i j s.currentPlayer c.1 c.2 = m) :
    ∃ s1 out, playStep s n = some (s1, out) ∧ s1.gameEnded = true
      ∧ s1.currentPlayer = s.currentPlayer
      ∧ s1.board = setCell s.board i j s.currentPlayer
      ∧ checkWin s1 = false ∧ checkDraw s1 = true
      ∧ showResult s1 = tieText ∧ showResult s1 ≠ winText s1.currentPlayer
      ∧ out = "Nice move!\n" ++ showBoard s1 ++ tieText := by
  have hcur : s.currentPlayer = 'X' ∨ s.currentPlayer = 'O' := by
    have := hfull i j
    simpa [setCell] using this
  have hwin : checkWin (placeMark s i j) = false := by
    rw [Bool.eq_false_iff, Ne, checkWin_lines]
    rintro ⟨l, hl, hline⟩
    refine hnoline l hl s.currentPlayer ?_ hline
    rcases hcur with h | h <;> simp [h]
  have hdraw : checkDraw (placeMark s i j) = true := checkDraw_of_full _ hfull
  have hres : showResult (placeMark s i j) = tieText := by
    simp only [showResult, hwin, hdraw, if_true, Bool.false_eq_true, if_false]
  have hstep := playStep_accept s n i j hn hempty
  simp only [hwin, hdraw, Bool.or_true, if_true, hres] at hstep
  exact ⟨_, _, hstep, rfl, rfl, rfl, hwin, hdraw, hres,
    hres ▸ fun h => winText_ne_tieText _ h.symm, rfl⟩

/-- C6 on the board where only cell 9 is empty and X fills it without completing a line. -/
theorem playStep_last_cell_draw_witness :
    lastCellPending.gameEnded = false ∧ getMoveCoordinates 9 = some (2, 2)
      ∧ ∃ s1 out, playStep lastCellPending 9 = some (s1, out) ∧ s1.gameEnded = true
        ∧ s1.currentPlayer = lastCellPending.currentPlayer
        ∧ s1.board = setCell lastCellPending.board 2 2 lastCellPending.currentPlayer
        ∧ checkWin s1 = false ∧ checkDraw s1 = true
        ∧ showResult s1 = tieText ∧ showResult s1 ≠ winText s1.currentPlayer
        ∧ out = "Nice move!\n" ++ showBoard s1 ++ tieText :=
  ⟨rfl, by decide,
    playStep_last_cell_draw lastCellPending 9 2 2 rfl (by decide) (by decide) (by decide)
      (by decide)⟩

/-- The loop body always returns: no position makes it access the board outside the array. It
either refuses the move and changes nothing, or places the mark and then ends the game or
passes the turn. -/
theorem playStep_cases (t : TicTacToe) (n : Int) :
    (accepted t n = false ∧ ∃ out, playStep t n = some (t, out))
    ∨ (accepted t n = true ∧ ∃ i j : Fin 3,
        getMoveCoordinates n = some ((i.val : Int), (j.val : Int))
        ∧ (t.board i j ≠ 'X' ∧ t.board i j ≠ 'O')
        ∧ playStep t n =
          if checkWin (placeMark t i j) || checkDraw (placeMark t i j) then
            some (endGame (placeMark t i j),
              "Nice move!\n" ++ showBoard (placeMark t i j) ++ showResult (placeMark t i j))
          else
            some (switchPlayer (placeMark t i j),
              "Nice move!\n" ++ showBoard (placeMark t i j))) := by
  by_cases hr : n < 1 ∨ n > 9
  · left
    refine ⟨by simp [accepted, makeMove_none t n hr], showBoard t, ?_⟩
    simp only [playStep, makeMove_none t n hr, String.empty_append]
  · have h1 : 1 ≤ n := by omega
    have h9 : n ≤ 9 := by omega
    obtain ⟨i, j, hij⟩ := getMoveCoordinates_range n h1 h9
    by_cases he : t.board i j ≠ 'X' ∧ t.board i j ≠ 'O'
    · right
      refine ⟨by simp [accepted, makeMove_cell t n i j hij, he], i, j, hij, he,
        playStep_accept t n i j hij he⟩
    · left
      have hocc : t.board i j = 'X' ∨ t.board i j = 'O' := by
        by_cases hx : t.board i j = 'X'
        · exact Or.inl hx
        · right
          by_contra ho
          exact he ⟨hx, ho⟩
      refine ⟨by simp [accepted, makeMove_cell t n i j hij, he], _,
        playStep_reject t n i j hij hocc⟩

/-- C7: when the board is full and `checkWin` holds for the current player, `showResult` prints
the win line for `currentPlayer` and not the tie line. A loop body that ends the game prints
one result line: the win line when `checkWin` holds, the tie line only when it does not; and
the two lines differ. -/
theorem showResult_win_before_draw (s t : TicTacToe) (n : Int)
    (_hfull : checkDraw s = true) (hwin : checkWin s = true) :
    showResult s = winText s.currentPlayer ∧ showResult s ≠ tieText
      ∧ (∀ p, winText p ≠ tieText)
      ∧ ∀ s1 out, t.gameEnded = false → playStep t n = some (s1, out) → s1.gameEnded = true →
          out = "Nice move!\n" ++ showBoard s1 ++ showResult s1
          ∧ (checkWin s1 = true → showResult s1 = winText s1.currentPlayer)
          ∧ (checkWin s1 = false → checkDraw s1 = true ∧ showResult s1 = tieText) := by
  have hres : showResult s = winText s.currentPlayer := by
    simp only [showResult, hwin, if_true]
  refine ⟨hres, hres ▸ winText_ne_tieText _, winText_ne_tieText, ?_⟩
  intro s1 out hrun hstep hend
  rcases playStep_cases t n with ⟨_, out2, h2⟩ | ⟨_, i, j, _, _, h2⟩
  · rw [h2] at hstep
    simp only [Option.some.injEq, Prod.mk.injEq] at hstep
    rw [← hstep.1, hrun] at hend
    exact absurd hend (by decide)
  · rw [h2] at hstep
    split at hstep
    · rename_i hwd
      simp only [Option.some.injEq, Prod.mk.injEq] at hstep
      obtain ⟨rfl, rfl⟩ := hstep
      refine ⟨rfl, fun hw => ?_, fun hw => ?_⟩
      · simp only [showResult, hw, if_true]
      · have hw2 : checkWin (placeMark t i j) = false := hw
        rw [hw2, Bool.false_or] at hwd
        have hd : checkDraw (endGame (placeMark t i j)) = true := hwd
        exact ⟨hd, by simp only [showResult, hw, hd, if_true, Bool.false_eq_true, if_false]⟩
    · simp only [Option.some.injEq, Prod.mk.injEq] at hstep
      rw [← hstep.1] at hend
      have : (switchPlayer (placeMark t i j)).gameEnded = t.gameEnded := rfl
      rw [this, hrun] at hend
      exact absurd hend (by decide)

/-- C7 on the full board where X has completed the diagonal 1/5/9 with the last empty cell. -/
theorem showResult_win_before_draw_witness :
    checkDraw fullBoardWon = true ∧ checkWin fullBoardWon = true
      ∧ showResult fullBoardWon = winText 'X' ∧ showResult fullBoardWon ≠ tieText
      ∧ (∀ p, winText p ≠ tieText)
      ∧ ∀ s1 out, fullBoardPending.gameEnded = false →
          playStep fullBoardPending 9 = some (s1, out) → s1.gameEnded = true →
          out = "Nice move!\n" ++ showBoard s1 ++ showResult s1
          ∧ (checkWin s1 = true → showResult s1 = winText s1.currentPlayer)
          ∧ (checkWin s1 = false → checkDraw s1 = true ∧ showResult s1 = tieText) :=
  ⟨by decide, by decide,
    showResult_win_before_draw fullBoardWon fullBoardPending 9 (by decide) (by decide)⟩

/-- Once the game has ended the loop takes no further move. -/
theorem runMoves_ended (s : TicTacToe) (moves : List Int) (h : s.gameEnded = true) :
    runMoves s moves = some (s, 0) := by
  cases moves with
  | nil => rfl
  | cons m rest => simp [runMoves, h]

/-- From any state with `X` or `O` to move, the loop returns on every list of moves, and while
the game has not ended the player to move is the starting one after an even number of accepted
moves and the other one after an odd number. -/
theorem runMoves_turn (moves : List Int) (s : TicTacToe)
    (hP : s.currentPlayer = 'X' ∨ s.currentPlayer = 'O') :
    ∃ s2 k, runMoves s moves = some (s2, k)
      ∧ (s2.gameEnded = false →
          s2.currentPlayer
            = if k % 2 = 0 then s.currentPlayer else (if s.currentPlayer = 'X' then 'O' else 'X')) := by
  induction moves generalizing s with
  | nil => exact ⟨s, 0, rfl, fun _ => by simp⟩
  | cons m rest ih =>
    by_cases hend : s.gameEnded = true
    · exact ⟨s, 0, runMoves_ended s _ hend, fun _ => by simp⟩
    · rcases playStep_cases s m with ⟨hacc, out, hstep⟩ | ⟨hacc, i, j, _, _, hstep⟩
      · obtain ⟨s2, k, hrun, hturn⟩ := ih s hP
        refine ⟨s2, k, ?_, hturn⟩
        simp [runMoves, hend, hstep, hrun, hacc]
      · by_cases hwd : (checkWin (placeMark s i j) || checkDraw (placeMark s i j)) = true
        · rw [if_pos hwd] at hstep
          refine ⟨endGame (placeMark s i j), 1, ?_, fun h => absurd h (by simp [endGame])⟩
          simp [runMoves, hend, hstep, hacc, runMoves_ended _ rest (rfl : (endGame _).gameEnded = true)]
        · rw [if_neg hwd] at hstep
          have hcur : (switchPlayer (placeMark s i j)).currentPlayer
              = if s.currentPlayer = 'X' then 'O' else 'X' := rfl
          have hP1 : (switchPlayer (placeMark s i j)).currentPlayer = 'X'
              ∨ (switchPlayer (placeMark s i j)).currentPlayer = 'O' := by
            rw [hcur]; split <;> simp
          obtain ⟨s2, k, hrun, hturn⟩ := ih _ hP1
          refine ⟨s2, k + 1, ?_, fun h => ?_⟩
          · simp [runMoves, hend, hstep, hrun, hacc]
          · rw [hturn h, hcur]
            rcases Nat.mod_two_eq_zero_or_one k with hk | hk
            · have hk1 : (k + 1) % 2 = 1 := by omega
              simp [hk, hk1]
            · have hk1 : (k + 1) % 2 = 0 := by omega
              rcases hP with hx | ho
              · simp [hk, hk1, hx]
              · simp [hk, hk1, ho]

/-- C8: from the initial state the loop returns on every list of moves, and as long as
`gameEnded` is false the player to move after `k` accepted moves is `X` for even `k` and `O`
for odd `k`. In any state, a loop body whose move is accepted and does not end the game turns
`X` into `O` and `O` into `X`, and a loop body whose move is refused changes nothing. -/
theorem turn_alternates (moves : List Int) (s : TicTacToe) (n : Int) :
    (∃ s2 k, runMoves initial moves = some (s2, k)
      ∧ (s2.gameEnded = false → s2.currentPlayer = if k % 2 = 0 then 'X' else 'O'))
    ∧ (∃ s1 out, playStep s n = some (s1, out)
      ∧ (accepted s n = true → s1.gameEnded = false →
          (s.currentPlayer = 'X' → s1.currentPlayer = 'O')
          ∧ (s.currentPlayer = 'O' → s1.currentPlayer = 'X'))
      ∧ (accepted s n = false → s1 = s)) := by
  constructor
  · obtain ⟨s2, k, hrun, hturn⟩ := runMoves_turn moves initial (Or.inl rfl)
    refine ⟨s2, k, hrun, fun h => ?_⟩
    rw [hturn h]
    rfl
  · rcases playStep_cases s n with ⟨hacc, out, hstep⟩ | ⟨hacc, i, j, _, _, hstep⟩
    · exact ⟨s, out, hstep, fun h => absurd h (by simp [hacc]), fun _ => rfl⟩
    · by_cases hwd : (checkWin (placeMark s i j) || checkDraw (placeMark s i j)) = true
      · rw [if_pos hwd] at hstep
        exact ⟨_, _, hstep, fun _ h => absurd h (by simp [endGame]),
          fun h => absurd h (by simp [hacc])⟩
      · rw [if_neg hwd] at hstep
        refine ⟨_, _, hstep, fun _ _ => ⟨fun hx => ?_, fun ho => ?_⟩,
          fun h => absurd h (by simp [hacc])⟩
        · simp [switchPlayer, placeMark, hx]
        · simp [switchPlayer, placeMark, ho]

/-- The validator hands a position from 1 to 9 straight to the caller. -/
theorem getMove_valid (prompt : String) (m : Int) (rest : List (Option Int))
    (h1 : 1 ≤ m) (h9 : m ≤ 9) :
    MoveValidator.getMove prompt (some m :: rest) = some (m, rest, prompt) := by
  have : ¬ (m < 1 ∨ m > 9) := by omega
  simp [MoveValidator.getMove, this]

/-- One turn of the loop of `play` when the game has not ended and the console supplies a
position from 1 to 9. -/
theorem play_valid_move (s : TicTacToe) (m : Int) (rest : List (Option Int))
    (hs : s.gameEnded = false) (h1 : 1 ≤ m) (h9 : m ≤ 9) :
    play s (some m :: rest) =
      match playStep s m with
      | none => none
      | some (s1, out2) =>
        match play s1 rest with
        | none => none
        | some (s2, out3) => some (s2, promptText s ++ out2 ++ out3) := by
  rw [play]
  simp only [hs, Bool.false_eq_true, if_false]
  split
  · rename_i heq
    rw [getMove_valid _ m rest h1 h9] at heq
    simp at heq
  · rename_i move left o1 heq
    rw [getMove_valid _ m rest h1 h9] at heq
    simp only [Option.some.injEq, Prod.mk.injEq] at heq
    obtain ⟨rfl, rfl, rfl⟩ := heq
    rfl

/-- Once the game has ended `play` returns at once. -/
theorem play_ended (s : TicTacToe) (input : List (Option Int)) (h : s.gameEnded = true) :
    play s input = some (s, "") := by
  rw [play]
  simp [h]

/-- The loop of `play` on a console that supplies the positions `moves`, all from 1 to 9, one
per read: when feeding the moves to the loop body ends the game, `play` returns with that
state. -/
theorem play_of_runMoves (moves : List Int) (s s2 : TicTacToe) (k : Nat)
    (hvalid : ∀ m ∈ moves, 1 ≤ m ∧ m ≤ 9)
    (hrun : runMoves s moves = some (s2, k)) (hend : s2.gameEnded = true) :
    ∃ out, play s (moves.map some) = some (s2, out) := by
  induction moves generalizing s k with
  | nil =>
    simp only [runMoves, Option.some.injEq, Prod.mk.injEq] at hrun
    obtain ⟨rfl, _⟩ := hrun
    exact ⟨"", play_ended s _ hend⟩
  | cons m rest ih =>
    by_cases hs : s.gameEnded = true
    · rw [runMoves_ended s _ hs] at hrun
      simp only [Option.some.injEq, Prod.mk.injEq] at hrun
      obtain ⟨rfl, _⟩ := hrun
      exact ⟨"", play_ended s _ hs⟩
    · have hm := hvalid m (List.mem_cons_self m rest)
      simp only [runMoves, hs, Bool.false_eq_true, if_false] at hrun
      split at hrun
      · simp at hrun
      · rename_i s1 out1 hstep
        split at hrun
        · simp at hrun
        · rename_i s3 k3 hrest
          simp only [Option.some.injEq, Prod.mk.injEq] at hrun
          obtain ⟨rfl, _⟩ := hrun
          obtain ⟨out3, hplay⟩ :=
            ih s1 k3 (fun x hx => hvalid x (List.mem_cons_of_mem m hx)) hrest
          refine ⟨promptText s ++ out1 ++ out3, ?_⟩
          rw [List.map_cons, play_valid_move s m _ (by simpa using hs) hm.1 hm.2]
          simp [hstep, hplay]

/-- C9: from the initial state the positions 1, 2, 5, 3, 9 are all accepted; after each of the
first four the game is in progress with X and O alternating; the top row then holds X, O, O;
after position 9 the diagonal 1/5/9 holds X, X, X and the game has ended with X the winner
(`gameEnded` true, `currentPlayer` X, `checkWin` true, `showResult` printing the win line for
X); and `play` on a console supplying these positions returns with that state. -/
theorem scenario_diagonal_win :
    (runMoves initial []).map view = some ("123456789", 'X', false, 0)
      ∧ (runMoves initial [1]).map view = some ("X23456789", 'O', false, 1)
      ∧ (runMoves initial [1, 2]).map view = some ("XO3456789", 'X', false, 2)
      ∧ (runMoves initial [1, 2, 5]).map view = some ("XO34X6789", 'O', false, 3)
      ∧ (runMoves initial [1, 2, 5, 3]).map view = some ("XOO4X6789", 'X', false, 4)
      ∧ (runMoves initial [1, 2, 5, 3, 9]).map view = some ("XOO4X678X", 'X', true, 5)
      ∧ runMoves initial [1, 2, 5, 3, 9] = some (wonByX, 5)
      ∧ (wonByX.board 0 0 = 'X' ∧ wonByX.board 0 1 = 'O' ∧ wonByX.board 0 2 = 'O')
      ∧ (wonByX.board 0 0 = 'X' ∧ wonByX.board 1 1 = 'X' ∧ wonByX.board 2 2 = 'X')
      ∧ wonByX.gameEnded = true ∧ wonByX.currentPlayer = 'X' ∧ checkWin wonByX = true
      ∧ showResult wonByX = winText 'X'
      ∧ ∃ out, play initial [some 1, some 2, some 5, some 3, some 9] = some (wonByX, out) := by
  have hrun : runMoves initial [1, 2, 5, 3, 9] = some (wonByX, 5) := by
    obtain ⟨s5, h, hs⟩ : ∃ s5, runMoves initial [1, 2, 5, 3, 9] = some (s5, 5) ∧ s5 = wonByX :=
      ⟨_, rfl, state_ext _ _ (by decide) (by decide) (by decide)⟩
    rw [h, hs]
  refine ⟨by decide, by decide, by decide, by decide, by decide, by decide, hrun,
    by decide, by decide, rfl, rfl, by decide, by decide, ?_⟩
  exact play_of_runMoves [1, 2, 5, 3, 9] initial wonByX 5 (by decide) hrun rfl

/-- C10, as stated, fails: position 7 gives X the anti-diagonal 3/5/7, so after the seventh
move the game has ended and `checkWin` holds. -/
theorem scenario_seven_moves_end_game :
    (runMoves initial [1, 2, 3, 4, 5, 6, 7]).map view = some ("XOXOXOX89", 'X', true, 7)
      ∧ (runMoves initial [1, 2, 3, 4, 5, 6, 7]).map (fun r => checkWin r.1) = some true := by
  exact ⟨by decide, by decide⟩

/-- C10, amended: from the initial state the positions 1 to 7 in order are all accepted, X and
O alternating; the game is in progress after each of the first six; position 7 completes the
anti-diagonal 3/5/7 for X, so the game ends there with X the winner and `showResult` prints the
win line, not the tie line; cells 8 and 9 stay empty, positions 8 and 9 supplied afterwards
are not taken, and `play` returns with that state. -/
theorem scenario_seven_moves_win :
    (runMoves initial [1]).map view = some ("X23456789", 'O', false, 1)
      ∧ (runMoves initial [1, 2]).map view = some ("XO3456789", 'X', false, 2)
      ∧ (runMoves initial [1, 2, 3]).map view = some ("XOX456789", 'O', false, 3)
      ∧ (runMoves initial [1, 2, 3, 4]).map view = some ("XOXO56789", 'X', false, 4)
      ∧ (runMoves initial [1, 2, 3, 4, 5]).map view = some ("XOXOX6789", 'O', false, 5)
      ∧ (runMoves initial [1, 2, 3, 4, 5, 6]).map view = some ("XOXOXO789", 'X', false, 6)
      ∧ runMoves initial [1, 2, 3, 4, 5, 6, 7] = some (wonOnAntiDiagonal, 7)
      ∧ runMoves initial [1, 2, 3, 4, 5, 6, 7, 8, 9] = some (wonOnAntiDiagonal, 7)
      ∧ cells wonOnAntiDiagonal.board = "XOXOXOX89"
      ∧ (wonOnAntiDiagonal.board 0 2 = 'X' ∧ wonOnAntiDiagonal.board 1 1 = 'X'
        ∧ wonOnAntiDiagonal.board 2 0 = 'X')
      ∧ wonOnAntiDiagonal.gameEnded = true ∧ wonOnAntiDiagonal.currentPlayer = 'X'
      ∧ checkWin wonOnAntiDiagonal = true ∧ checkDraw wonOnAntiDiagonal = false
      ∧ showResult wonOnAntiDiagonal = winText 'X' ∧ showResult wonOnAntiDiagonal ≠ tieText
      ∧ ∃ out, play initial [some 1, some 2, some 3, some 4, some 5, some 6, some 7]
          = some (wonOnAntiDiagonal, out) := by
  have hrun : runMoves initial [1, 2, 3, 4, 5, 6, 7] = some (wonOnAntiDiagonal, 7) := by
    obtain ⟨s7, h, hs⟩ : ∃ s7, runMoves initial [1, 2, 3, 4, 5, 6, 7] = some (s7, 7)
        ∧ s7 = wonOnAntiDiagonal :=
      ⟨_, rfl, state_ext _ _ (by decide) (by decide) (by decide)⟩
    rw [h, hs]
  have hrun9 : runMoves initial [1, 2, 3, 4, 5, 6, 7, 8, 9] = some (wonOnAntiDiagonal, 7) := by
    obtain ⟨s7, h, hs⟩ : ∃ s7, runMoves initial [1, 2, 3, 4, 5, 6, 7, 8, 9] = some (s7, 7)
        ∧ s7 = wonOnAntiDiagonal :=
      ⟨_, rfl, state_ext _ _ (by decide) (by decide) (by decide)⟩
    rw [h, hs]
  refine ⟨by decide, by decide, by decide, by decide, by decide, by decide, hrun, hrun9,
    by decide, by decide, rfl, rfl, by decide, by decide, by decide, by decide, ?_⟩
  exact play_of_runMoves [1, 2, 3, 4, 5, 6, 7] initial wonOnAntiDiagonal 7 (by decide) hrun rfl

/-- The coordinates `getMoveCoordinates` computes for a position from 1 to 9. -/
theorem getMoveCoordinates_eq (n : Int) (h1 : 1 ≤ n) (h9 : n ≤ 9) :
    getMoveCoordinates n = some ((n - 1) / 3, (n - 1) % 3) := by
  interval_cases n <;> rfl

/-- `checkDraw` unfolded: every cell holds a mark. -/
theorem checkDraw_full (s : TicTacToe) :
    checkDraw s = true ↔ ∀ i j, s.board i j = 'X' ∨ s.board i j = 'O' := by
  constructor
  · intro h i j
    simp only [checkDraw, List.all_cons, List.all_nil, Bool.and_true, Bool.and_eq_true,
      Bool.not_eq_true', Bool.and_eq_false_iff, bne_eq_false_iff_eq] at h
    obtain ⟨⟨h00, h01, h02⟩, ⟨h10, h11, h12⟩, ⟨h20, h21, h22⟩⟩ := h
    fin_cases i <;> fin_cases j <;> assumption
  · exact checkDraw_of_full s

/-- C11: the state the constructor produces has every cell empty (the cells show the position
numbers, so `isMoveValid` holds for every position from 1 to 9 and `checkDraw` and `checkWin`
are false), `currentPlayer` is `X` and `gameEnded` is false, whatever the members held before. -/
theorem constructor_initial_state (uninit : TicTacToe) :
    (∀ i j, (new uninit).board i j ≠ 'X' ∧ (new uninit).board i j ≠ 'O')
      ∧ cells (new uninit).board = "123456789"
      ∧ (∀ n : Int, 1 ≤ n → n ≤ 9 → isMoveValid (new uninit) n = some true)
      ∧ checkDraw (new uninit) = false ∧ checkWin (new uninit) = false
      ∧ (new uninit).currentPlayer = 'X' ∧ (new uninit).gameEnded = false := by
  rw [new_eq_initial]
  refine ⟨by decide, by decide, ?_, by decide, by decide, rfl, rfl⟩
  intro n h1 h9
  interval_cases n <;> decide

/-- C12: for every position `n` from 1 to 9, `getMoveCoordinates` succeeds with
`row = (n-1)/3` and `col = (n-1)%3`, both in 0..2, and `3*row + col + 1 = n`; so no other
position gets the same cell, every cell is the cell of some position, and `isMoveValid` and
`makeMove` access the board inside the grid, for this and every other integer. -/
theorem getMoveCoordinates_in_grid (s : TicTacToe) (n : Int) (h1 : 1 ≤ n) (h9 : n ≤ 9) :
    ∃ row col, getMoveCoordinates n = some (row, col)
      ∧ (row = Int.tdiv (n - 1) 3 ∧ col = Int.tmod (n - 1) 3)
      ∧ (row = (n - 1) / 3 ∧ col = (n - 1) % 3)
      ∧ (0 ≤ row ∧ row < 3) ∧ (0 ≤ col ∧ col < 3)
      ∧ 3 * row + col + 1 = n
      ∧ (∀ m, getMoveCoordinates m = some (row, col) → m = n)
      ∧ (∀ i j : Fin 3, ∃ m : Int, 1 ≤ m ∧ m ≤ 9
          ∧ getMoveCoordinates m = some ((i.val : Int), (j.val : Int)))
      ∧ (readCell s.board row col ≠ none ∧ writeCell s.board row col s.currentPlayer ≠ none)
      ∧ (∀ m, isMoveValid s m ≠ none ∧ makeMove s m ≠ none) := by
  have hn := getMoveCoordinates_eq n h1 h9
  have hrow : 0 ≤ (n - 1) / 3 ∧ (n - 1) / 3 < 3 := by omega
  have hcol : 0 ≤ (n - 1) % 3 ∧ (n - 1) % 3 < 3 := by omega
  refine ⟨(n - 1) / 3, (n - 1) % 3, hn, ?_, ⟨rfl, rfl⟩, hrow, hcol, by omega, ?_, ?_, ?_, ?_⟩
  · have h2 : getMoveCoordinates n = some (Int.tdiv (n - 1) 3, Int.tmod (n - 1) 3) := by
      have : ¬ (n < 1 ∨ n > 9) := by omega
      simp [getMoveCoordinates, this]
    rw [hn] at h2
    simp only [Option.some.injEq, Prod.mk.injEq] at h2
    exact h2
  · intro m hm
    by_cases hr : m < 1 ∨ m > 9
    · rw [getMoveCoordinates_none m hr] at hm
      simp at hm
    · rw [getMoveCoordinates_eq m (by omega) (by omega)] at hm
      simp only [Option.some.injEq, Prod.mk.injEq] at hm
      omega
  · intro i j
    have hi := i.isLt
    have hj := j.isLt
    refine ⟨3 * (i.val : Int) + (j.val : Int) + 1, by omega, by omega, ?_⟩
    rw [getMoveCoordinates_eq _ (by omega) (by omega)]
    simp only [Option.some.injEq, Prod.mk.injEq]
    omega
  · simp only [readCell, writeCell, hrow, hcol, and_self, dite_true, ne_eq, not_false_eq_true]
    simp
  · intro m
    by_cases hr : m < 1 ∨ m > 9
    · simp [isMoveValid, makeMove_none s m hr, getMoveCoordinates_none m hr]
    · obtain ⟨i, j, hij⟩ := getMoveCoordinates_range m (by omega) (by omega)
      constructor
      · simp [isMoveValid, hij, readCell_cast]
      · rw [makeMove_cell s m i j hij]
        split <;> simp

/-- C12 at position 6, the cell in row 1 and column 2. -/
theorem getMoveCoordinates_in_grid_witness :
    ∃ row col, getMoveCoordinates 6 = some (row, col)
      ∧ (row = Int.tdiv (6 - 1) 3 ∧ col = Int.tmod (6 - 1) 3)
      ∧ (row = (6 - 1) / 3 ∧ col = (6 - 1) % 3)
      ∧ (0 ≤ row ∧ row < 3) ∧ (0 ≤ col ∧ col < 3)
      ∧ 3 * row + col + 1 = 6
      ∧ (∀ m, getMoveCoordinates m = some (row, col) → m = 6)
      ∧ (∀ i j : Fin 3, ∃ m : Int, 1 ≤ m ∧ m ≤ 9
          ∧ getMoveCoordinates m = some ((i.val : Int), (j.val : Int)))
      ∧ (readCell initial.board row col ≠ none
          ∧ writeCell initial.board row col initial.currentPlayer ≠ none)
      ∧ (∀ m, isMoveValid initial m ≠ none ∧ makeMove initial m ≠ none) :=
  getMoveCoordinates_in_grid initial 6 (by decide) (by decide)

/-- C13: for every state and every integer `n`, `makeMove` returns, and it returns true exactly
when `n` is from 1 to 9 and the cell at `((n-1)/3, (n-1)%3)` holds neither `X` nor `O`. When
it returns true that cell holds `currentPlayer` afterwards, the other eight cells are
unchanged, and so are `currentPlayer` and `gameEnded`; when it returns false nothing changes. -/
theorem makeMove_true_iff (s : TicTacToe) (n : Int) :
    ∃ r s1 out, makeMove s n = some (r, s1, out)
      ∧ (r = true ↔ 1 ≤ n ∧ n ≤ 9
          ∧ ∃ c, readCell s.board ((n - 1) / 3) ((n - 1) % 3) = some c ∧ c ≠ 'X' ∧ c ≠ 'O')
      ∧ (r = true →
          readCell s1.board ((n - 1) / 3) ((n - 1) % 3) = some s.currentPlayer
          ∧ (∀ i j : Fin 3, ((i.val : Int), (j.val : Int)) ≠ ((n - 1) / 3, (n - 1) % 3) →
              s1.board i j = s.board i j)
          ∧ s1.currentPlayer = s.currentPlayer ∧ s1.gameEnded = s.gameEnded)
      ∧ (r = false → s1 = s) := by
  by_cases hr : n < 1 ∨ n > 9
  · refine ⟨false, s, "", makeMove_none s n hr, ?_, fun h => absurd h (by decide), fun _ => rfl⟩
    constructor
    · intro h; exact absurd h (by decide)
    · rintro ⟨h1, h9, _⟩; omega
  · have h1 : 1 ≤ n := by omega
    have h9 : n ≤ 9 := by omega
    obtain ⟨i, j, hij⟩ := getMoveCoordinates_range n h1 h9
    have hc := getMoveCoordinates_eq n h1 h9
    rw [hij] at hc
    simp only [Option.some.injEq, Prod.mk.injEq] at hc
    obtain ⟨hi, hj⟩ := hc
    rw [← hi, ← hj]
    by_cases he : s.board i j ≠ 'X' ∧ s.board i j ≠ 'O'
    · refine ⟨true, placeMark s i j, "", ?_, ?_, fun _ => ⟨?_, ?_, rfl, rfl⟩,
        fun h => absurd h (by decide)⟩
      · rw [makeMove_cell s n i j hij, if_pos he]
      · simp only [readCell_cast, Option.some.injEq, exists_eq_left', true_iff]
        exact ⟨h1, h9, he⟩
      · simp [readCell_cast, placeMark, setCell]
      · intro i2 j2 hne
        have hne2 : ¬ (i2 = i ∧ j2 = j) := by
          rintro ⟨rfl, rfl⟩
          exact hne rfl
        simp only [placeMark, setCell, hne2, if_false]
    · refine ⟨false, s, takenText, ?_, ?_, fun h => absurd h (by decide), fun _ => rfl⟩
      · rw [makeMove_cell s n i j hij, if_neg he]
      · simp only [readCell_cast, Option.some.injEq, exists_eq_left', Bool.false_eq_true,
          false_iff]
        rintro ⟨_, _, h⟩
        exact he h

/-- C14, as stated, fails: in the state where X holds 1 and 5, `makeMove` returns the same
value and leaves the same state for position 0, outside 1..9, and for position 5, whose cell
is occupied. -/
theorem makeMove_same_return_for_both_rejections :
    (makeMove diagonalPending 0).map (fun r => (r.1, r.2.1)) = some (false, diagonalPending)
      ∧ (makeMove diagonalPending 5).map (fun r => (r.1, r.2.1))
          = some (false, diagonalPending) := by
  constructor
  · rw [makeMove_none diagonalPending 0 (Or.inl (by decide))]
    rfl
  · rw [makeMove_cell diagonalPending 5 1 1 (by decide), if_neg (by decide)]
    rfl

/-- C14, amended: `makeMove` returns false and leaves the state unchanged both for a position
outside 1..9 and for a position from 1 to 9 whose cell is occupied; the two differ only in the
text printed, nothing for the first and the spot-taken line for the second, and the loop body
prints the board after either. -/
theorem makeMove_rejections_differ_in_text (s : TicTacToe) (n m : Int)
    (hn : n < 1 ∨ n > 9) (hm1 : 1 ≤ m) (hm9 : m ≤ 9)
    (hocc : cellOfPos s.board m = some 'X' ∨ cellOfPos s.board m = some 'O') :
    makeMove s n = some (false, s, "") ∧ makeMove s m = some (false, s, takenText)
      ∧ takenText ≠ ""
      ∧ playStep s n = some (s, showBoard s)
      ∧ playStep s m = some (s, takenText ++ showBoard s) := by
  obtain ⟨i, j, hij⟩ := getMoveCoordinates_range m hm1 hm9
  rw [cellOfPos_cell s.board m i j hij] at hocc
  have hocc2 : s.board i j = 'X' ∨ s.board i j = 'O' := by
    rcases hocc with h | h
    · exact Or.inl (Option.some.inj h)
    · exact Or.inr (Option.some.inj h)
  have hne : ¬ (s.board i j ≠ 'X' ∧ s.board i j ≠ 'O') := by
    rcases hocc2 with he | he <;> simp [he]
  refine ⟨makeMove_none s n hn, ?_, by decide, ?_, playStep_reject s m i j hij hocc2⟩
  · rw [makeMove_cell s m i j hij, if_neg hne]
  · simp only [playStep, makeMove_none s n hn, String.empty_append]

/-- C14, amended, at positions 0 and 5 in the state where X holds 1 and 5. -/
theorem makeMove_rejections_differ_in_text_witness :
    cellOfPos diagonalPending.board 5 = some 'X'
      ∧ makeMove diagonalPending 0 = some (false, diagonalPending, "")
      ∧ makeMove diagonalPending 5 = some (false, diagonalPending, takenText)
      ∧ takenText ≠ ""
      ∧ playStep diagonalPending 0 = some (diagonalPending, showBoard diagonalPending)
      ∧ playStep diagonalPending 5
          = some (diagonalPending, takenText ++ showBoard diagonalPending) :=
  ⟨by decide, makeMove_rejections_differ_in_text diagonalPending 0 5 (Or.inl (by decide))
    (by decide) (by decide) (Or.inl (by decide))⟩

/-- C15: `checkDraw` is true exactly when every one of the nine cells holds `X` or `O`. It
does not depend on `currentPlayer` or `gameEnded`, nor on which mark a cell holds or whether a
line is complete: two boards with the same occupied cells give the same answer. -/
theorem checkDraw_iff_full (s : TicTacToe) :
    (checkDraw s = true ↔ ∀ i j, s.board i j = 'X' ∨ s.board i j = 'O')
      ∧ (∀ p g, checkDraw { s with currentPlayer := p, gameEnded := g } = checkDraw s)
      ∧ (∀ t : TicTacToe,
          (∀ i j, (t.board i j = 'X' ∨ t.board i j = 'O')
            ↔ (s.board i j = 'X' ∨ s.board i j = 'O')) →
          checkDraw t = checkDraw s) := by
  refine ⟨checkDraw_full s, fun _ _ => rfl, fun t h => ?_⟩
  rw [Bool.eq_iff_iff, checkDraw_full, checkDraw_full]
  exact ⟨fun ht i j => (h i j).1 (ht i j), fun hs i j => (h i j).2 (hs i j)⟩

/-! ## Counting marks and the invariant of the loop -/

theorem mem_allCells (c : Fin 3 × Fin 3) : c ∈ allCells := by
  obtain ⟨i, j⟩ := c
  fin_cases i <;> fin_cases j <;> decide

/-- `hasLine` unfolded. -/
theorem hasLine_iff (b : Board) (m : Char) :
    hasLine b m = true ↔ ∃ l ∈ winLines, ∀ c ∈ l, b c.1 c.2 = m := by
  simp only [hasLine, List.any_eq_true, List.all_eq_true, beq_iff_eq]

/-- `checkWin` looks for a line of the current player. -/
theorem checkWin_eq_hasLine (s : TicTacToe) : checkWin s = hasLine s.board s.currentPlayer := by
  rw [Bool.eq_iff_iff, checkWin_lines, hasLine_iff]

/-- Placing a mark completes no line of another mark. -/
theorem hasLine_setCell (b : Board) (i j : Fin 3) (p m : Char) (hpm : p ≠ m)
    (h : hasLine (setCell b i j p) m = true) : hasLine b m = true := by
  rw [hasLine_iff] at h ⊢
  obtain ⟨l, hl, hline⟩ := h
  refine ⟨l, hl, fun c hc => ?_⟩
  have := hline c hc
  simp only [setCell] at this
  split at this
  · exact absurd this hpm
  · exact this

/-- A sum of zeros and ones over a list is at most its length. -/
theorem indicator_sum_le (L : List (Fin 3 × Fin 3)) (P : Fin 3 × Fin 3 → Prop)
    [DecidablePred P] : (L.map fun c => if P c then 1 else 0).sum ≤ L.length := by
  induction L with
  | nil => simp
  | cons a rest ih =>
    simp only [List.map_cons, List.sum_cons, List.length_cons]
    split <;> omega

/-- A sum of zeros and ones over a list reaches its length only when all are ones. -/
theorem indicator_sum_eq_length (L : List (Fin 3 × Fin 3)) (P : Fin 3 × Fin 3 → Prop)
    [DecidablePred P] :
    (L.map fun c => if P c then 1 else 0).sum = L.length ↔ ∀ c ∈ L, P c := by
  induction L with
  | nil => simp
  | cons a rest ih =>
    have hle := indicator_sum_le rest P
    simp only [List.map_cons, List.sum_cons, List.length_cons, List.mem_cons, forall_eq_or_imp]
    by_cases ha : P a
    · simp only [ha, if_true, true_and]
      rw [← ih]
      omega
    · simp only [ha, if_false, false_and, iff_false]
      omega

theorem markCount_le (b : Board) : markCount b ≤ 9 :=
  indicator_sum_le allCells (fun c => b c.1 c.2 = 'X' ∨ b c.1 c.2 = 'O')

/-- The board is full exactly when nine cells are marked. -/
theorem markCount_eq_nine (b : Board) :
    markCount b = 9 ↔ ∀ i j, b i j = 'X' ∨ b i j = 'O' := by
  have h := indicator_sum_eq_length allCells (fun c => b c.1 c.2 = 'X' ∨ b c.1 c.2 = 'O')
  constructor
  · intro h9 i j
    exact (h.1 h9) (i, j) (mem_allCells (i, j))
  · intro hfull
    exact h.2 (fun c _ => hfull c.1 c.2)

/-- The marked cells are those of X and those of O. -/
theorem markCount_eq_counts (b : Board) : markCount b = countMark b 'X' + countMark b 'O' := by
  simp only [markCount, countMark]
  induction allCells with
  | nil => rfl
  | cons a rest ih =>
    simp only [List.map_cons, List.sum_cons, ih]
    have hxo : ¬ ('X' = 'O') := by decide
    have hox : ¬ ('O' = 'X') := by decide
    by_cases hx : b a.1 a.2 = 'X'
    · simp only [hx, hxo, true_or, if_true, if_false]
      omega
    · by_cases ho : b a.1 a.2 = 'O'
      · simp only [ho, hox, or_true, if_true, if_false]
        omega
      · simp only [hx, ho, or_self, if_false]
        omega

/-- Writing `p` into a cell that does not hold `m` adds one to the count of `m` when `p` is
`m` and leaves it otherwise. -/
theorem countMark_setCell (b : Board) (i j : Fin 3) (p m : Char) (h : b i j ≠ m) :
    countMark (setCell b i j p) m = countMark b m + (if p = m then 1 else 0) := by
  fin_cases i <;> fin_cases j <;>
    simp [countMark, allCells, setCell] at h ⊢ <;> simp [h] <;> omega

theorem consistent_initial : Consistent initial := by
  refine ⟨Or.inl rfl, by decide, fun _ => ⟨by decide, by decide, by decide⟩,
    fun h => absurd h (by decide)⟩

/-- Placing the mark of the player to move on an empty cell marks one more cell. -/
theorem markCount_placeMark (s : TicTacToe) (i j : Fin 3)
    (hP : s.currentPlayer = 'X' ∨ s.currentPlayer = 'O')
    (he : s.board i j ≠ 'X' ∧ s.board i j ≠ 'O') :
    markCount (placeMark s i j).board = markCount s.board + 1 := by
  rw [markCount_eq_counts, markCount_eq_counts]
  simp only [placeMark]
  rw [countMark_setCell _ _ _ _ _ he.1, countMark_setCell _ _ _ _ _ he.2]
  rcases hP with h | h <;> simp [h] <;> omega

/-- One loop body, started where the game has not ended, keeps the invariant, and marks one
more cell exactly when the move is accepted. -/
theorem playStep_consistent (s : TicTacToe) (n : Int) (hc : Consistent s)
    (hrun : s.gameEnded = false) :
    ∃ s1 out, playStep s n = some (s1, out) ∧ Consistent s1
      ∧ markCount s1.board = markCount s.board + (if accepted s n = true then 1 else 0) := by
  rcases playStep_cases s n with ⟨hacc, out, hstep⟩ | ⟨hacc, i, j, _, he, hstep⟩
  · exact ⟨s, out, hstep, hc, by simp [hacc]⟩
  · obtain ⟨hP, hother, hopen, _⟩ := hc
    obtain ⟨hmine, _, hcount⟩ := hopen hrun
    have hcx := countMark_setCell s.board i j s.currentPlayer 'X' he.1
    have hco := countMark_setCell s.board i j s.currentPlayer 'O' he.2
    have hne : s.currentPlayer ≠ otherPlayer s.currentPlayer := by
      rcases hP with h | h <;> simp [h, otherPlayer]
    have hoo : otherPlayer (otherPlayer s.currentPlayer) = s.currentPlayer := by
      rcases hP with h | h <;> simp [h, otherPlayer]
    have hother1 : hasLine (placeMark s i j).board (otherPlayer s.currentPlayer) = false := by
      rw [Bool.eq_false_iff]
      intro h
      have := hasLine_setCell s.board i j s.currentPlayer _ hne h
      rw [hother] at this
      exact absurd this (by decide)
    have hmark := markCount_placeMark s i j hP he
    by_cases hwd : (checkWin (placeMark s i j) || checkDraw (placeMark s i j)) = true
    · rw [if_pos hwd] at hstep
      refine ⟨_, _, hstep, ⟨hP, hother1, fun h => absurd h (by simp [endGame]), fun _ => ⟨?_, ?_⟩⟩,
        by simpa [hacc] using hmark⟩
      · simpa only [Bool.or_eq_true] using hwd
      · show countMark (setCell s.board i j s.currentPlayer) 'X'
            = countMark (setCell s.board i j s.currentPlayer) 'O'
              + (if s.currentPlayer = 'X' then 1 else 0)
        rw [hcx, hco, hcount]
        rcases hP with h | h <;> simp [h]
    · rw [if_neg hwd] at hstep
      simp only [Bool.or_eq_true, not_or, Bool.not_eq_true] at hwd
      obtain ⟨hw, hd⟩ := hwd
      have hcur : (switchPlayer (placeMark s i j)).currentPlayer
          = otherPlayer s.currentPlayer := rfl
      have hboard : (switchPlayer (placeMark s i j)).board = (placeMark s i j).board := rfl
      refine ⟨_, _, hstep, ⟨?_, ?_, fun _ => ⟨?_, hd, ?_⟩, fun h => ?_⟩,
        by simpa [hacc] using hmark⟩
      · rw [hcur]
        rcases hP with h | h <;> simp [h, otherPlayer]
      · rw [hcur, hoo, hboard, ← hw, checkWin_eq_hasLine]
        rfl
      · rw [hcur, hboard]
        exact hother1
      · rw [hcur]
        show countMark (setCell s.board i j s.currentPlayer) 'X'
            = countMark (setCell s.board i j s.currentPlayer) 'O'
              + (if otherPlayer s.currentPlayer = 'X' then 0 else 1)
        rw [hcx, hco, hcount]
        rcases hP with h | h <;> simp [h, otherPlayer]
      · have : (switchPlayer (placeMark s i j)).gameEnded = s.gameEnded := rfl
        rw [this, hrun] at h
        exact absurd h (by decide)

/-- The loop returns on every list of moves, keeps the invariant, and the number of marked
cells grows by the number of accepted moves. -/
theorem runMoves_consistent (moves : List Int) (s : TicTacToe) (hc : Consistent s) :
    ∃ s2 k, runMoves s moves = some (s2, k) ∧ Consistent s2
      ∧ markCount s2.board = markCount s.board + k := by
  induction moves generalizing s with
  | nil => exact ⟨s, 0, rfl, hc, rfl⟩
  | cons m rest ih =>
    by_cases hend : s.gameEnded = true
    · exact ⟨s, 0, runMoves_ended s _ hend, hc, rfl⟩
    · obtain ⟨s1, out, hstep, hc1, hm1⟩ := playStep_consistent s m hc (by simpa using hend)
      obtain ⟨s2, k, hrun, hc2, hm2⟩ := ih s1 hc1
      refine ⟨s2, k + (if accepted s m = true then 1 else 0), ?_, hc2, by omega⟩
      simp [runMoves, hend, hstep, hrun]

/-- The loop body never changes a cell that holds a mark. -/
theorem playStep_keeps_mark (s : TicTacToe) (n : Int) (i j : Fin 3)
    (h : s.board i j = 'X' ∨ s.board i j = 'O') :
    ∃ s1 out, playStep s n = some (s1, out) ∧ s1.board i j = s.board i j := by
  rcases playStep_cases s n with ⟨_, out, hstep⟩ | ⟨_, i2, j2, _, he, hstep⟩
  · exact ⟨s, out, hstep, rfl⟩
  · have hne : ¬ (i = i2 ∧ j = j2) := by
      rintro ⟨rfl, rfl⟩
      rcases h with h | h
      · exact he.1 h
      · exact he.2 h
    have hcell : (placeMark s i2 j2).board i j = s.board i j := by
      simp only [placeMark, setCell, hne, if_false]
    by_cases hwd : (checkWin (placeMark s i2 j2) || checkDraw (placeMark s i2 j2)) = true
    · rw [if_pos hwd] at hstep
      exact ⟨_, _, hstep, hcell⟩
    · rw [if_neg hwd] at hstep
      exact ⟨_, _, hstep, hcell⟩

/-- The states reached by the games used as examples. -/
theorem runMoves_diagonalPending : runMoves initial [1, 2, 5, 4] = some (diagonalPending, 4) := by
  obtain ⟨s4, h, hs⟩ : ∃ s4, runMoves initial [1, 2, 5, 4] = some (s4, 4)
      ∧ s4 = diagonalPending :=
    ⟨_, rfl, state_ext _ _ (by decide) (by decide) (by decide)⟩
  rw [h, hs]

theorem runMoves_drawnGame :
    runMoves initial [1, 2, 3, 5, 4, 6, 8, 7, 9] = some (drawnGame, 9) := by
  obtain ⟨s9, h, hs⟩ : ∃ s9, runMoves initial [1, 2, 3, 5, 4, 6, 8, 7, 9] = some (s9, 9)
      ∧ s9 = drawnGame :=
    ⟨_, rfl, state_ext _ _ (by decide) (by decide) (by decide)⟩
  rw [h, hs]

/-- C16: marks are never overwritten or removed. From any state, after any list of moves,
accepted or refused, a cell that held `X` or `O` holds the same mark; the same is true of a
single loop body in any state. -/
theorem marks_never_overwritten (s : TicTacToe) (moves : List Int) (n : Int) (i j : Fin 3)
    (h : s.board i j = 'X' ∨ s.board i j = 'O') :
    (∃ s2 k, runMoves s moves = some (s2, k) ∧ s2.board i j = s.board i j)
      ∧ (∃ s1 out, playStep s n = some (s1, out) ∧ s1.board i j = s.board i j) := by
  refine ⟨?_, playStep_keeps_mark s n i j h⟩
  induction moves generalizing s with
  | nil => exact ⟨s, 0, rfl, rfl⟩
  | cons m rest ih =>
    by_cases hend : s.gameEnded = true
    · exact ⟨s, 0, runMoves_ended s _ hend, rfl⟩
    · obtain ⟨s1, out, hstep, h1⟩ := playStep_keeps_mark s m i j h
      obtain ⟨s2, k, hrun, h2⟩ := ih s1 (h1 ▸ h)
      refine ⟨s2, k + (if accepted s m = true then 1 else 0), ?_, h2.trans h1⟩
      simp [runMoves, hend, hstep, hrun]

/-- C16 in the state where X holds 1 and 5 and O holds 2 and 4: cell 5 keeps its X through the
moves 5, 9 and through a loop body with position 5. -/
theorem marks_never_overwritten_witness :
    diagonalPending.board 1 1 = 'X'
      ∧ (∃ s2 k, runMoves diagonalPending [5, 9] = some (s2, k)
          ∧ s2.board 1 1 = diagonalPending.board 1 1)
      ∧ (∃ s1 out, playStep diagonalPending 5 = some (s1, out)
          ∧ s1.board 1 1 = diagonalPending.board 1 1) :=
  ⟨by decide, marks_never_overwritten diagonalPending [5, 9] 5 1 1 (Or.inl (by decide))⟩

/-- Every state the loop reaches from the initial state satisfies the invariant, and the
number of accepted moves is the number of marked cells. -/
theorem reachable_consistent (moves : List Int) (s : TicTacToe) (k : Nat)
    (hreach : runMoves initial moves = some (s, k)) :
    Consistent s ∧ markCount s.board = k := by
  obtain ⟨s2, k2, hrun, hc, hm⟩ := runMoves_consistent moves initial consistent_initial
  rw [hrun] at hreach
  simp only [Option.some.injEq, Prod.mk.injEq] at hreach
  obtain ⟨rfl, rfl⟩ := hreach
  have h0 : markCount initial.board = 0 := by decide
  exact ⟨hc, by omega⟩

/-- In a state where the other player has no line, `checkWin` holds exactly when `X` or `O` has
a line. -/
theorem checkWin_iff_any_line (s : TicTacToe)
    (hP : s.currentPlayer = 'X' ∨ s.currentPlayer = 'O')
    (hother : hasLine s.board (otherPlayer s.currentPlayer) = false) :
    checkWin s = true ↔ (hasLine s.board 'X' = true ∨ hasLine s.board 'O' = true) := by
  rw [checkWin_eq_hasLine]
  rcases hP with h | h
  · rw [h] at hother ⊢
    have ho : hasLine s.board 'O' = false := hother
    simp [ho]
  · rw [h] at hother ⊢
    have hx : hasLine s.board 'X' = false := hother
    simp [hx]

/-- C17: in every state the loop reaches from the initial state, the player who is not the
current one has no complete line, `checkWin` holds exactly when some line is filled by `X` or
by `O`, and while the game has not ended neither player has a complete line. Right after an
accepted move, where `play` calls `checkWin`, the player who did not move has no complete line
and `checkWin` holds exactly when some line is filled by either player. -/
theorem only_mover_completes_line (moves : List Int) (s : TicTacToe) (k : Nat) (n : Int)
    (i j : Fin 3) (hreach : runMoves initial moves = some (s, k)) :
    hasLine s.board (otherPlayer s.currentPlayer) = false
      ∧ (checkWin s = true ↔ (hasLine s.board 'X' = true ∨ hasLine s.board 'O' = true))
      ∧ (s.gameEnded = false → hasLine s.board 'X' = false ∧ hasLine s.board 'O' = false)
      ∧ (s.gameEnded = false → getMoveCoordinates n = some ((i.val : Int), (j.val : Int)) →
          (s.board i j ≠ 'X' ∧ s.board i j ≠ 'O') →
          hasLine (placeMark s i j).board (otherPlayer s.currentPlayer) = false
          ∧ (checkWin (placeMark s i j) = true
              ↔ (hasLine (placeMark s i j).board 'X' = true
                  ∨ hasLine (placeMark s i j).board 'O' = true))) := by
  obtain ⟨⟨hP, hother, hopen, _⟩, _⟩ := reachable_consistent moves s k hreach
  have hne : s.currentPlayer ≠ otherPlayer s.currentPlayer := by
    rcases hP with h | h <;> simp [h, otherPlayer]
  refine ⟨hother, checkWin_iff_any_line s hP hother, fun hrun => ?_, fun _ _ _ => ?_⟩
  · have hmine := (hopen hrun).1
    rcases hP with h | h
    · rw [h] at hmine hother
      exact ⟨hmine, hother⟩
    · rw [h] at hmine hother
      exact ⟨hother, hmine⟩
  · have hother1 : hasLine (placeMark s i j).board (otherPlayer s.currentPlayer) = false := by
      rw [Bool.eq_false_iff]
      intro h
      have := hasLine_setCell s.board i j s.currentPlayer _ hne h
      rw [hother] at this
      exact absurd this (by decide)
    exact ⟨hother1, checkWin_iff_any_line (placeMark s i j) hP hother1⟩

/-- C17 after the moves 1, 2, 5, 4, with X about to play 9. -/
theorem only_mover_completes_line_witness :
    runMoves initial [1, 2, 5, 4] = some (diagonalPending, 4)
      ∧ hasLine diagonalPending.board (otherPlayer diagonalPending.currentPlayer) = false
      ∧ (checkWin diagonalPending = true
          ↔ (hasLine diagonalPending.board 'X' = true ∨ hasLine diagonalPending.board 'O' = true))
      ∧ (diagonalPending.gameEnded = false →
          hasLine diagonalPending.board 'X' = false ∧ hasLine diagonalPending.board 'O' = false)
      ∧ (diagonalPending.gameEnded = false →
          getMoveCoordinates 9 = some (((2 : Fin 3).val : Int), ((2 : Fin 3).val : Int)) →
          (diagonalPending.board 2 2 ≠ 'X' ∧ diagonalPending.board 2 2 ≠ 'O') →
          hasLine (placeMark diagonalPending 2 2).board
              (otherPlayer diagonalPending.currentPlayer) = false
          ∧ (checkWin (placeMark diagonalPending 2 2) = true
              ↔ (hasLine (placeMark diagonalPending 2 2).board 'X' = true
                  ∨ hasLine (placeMark diagonalPending 2 2).board 'O' = true))) :=
  ⟨runMoves_diagonalPending,
    only_mover_completes_line [1, 2, 5, 4] diagonalPending 4 9 2 2 runMoves_diagonalPending⟩

/-- The loop body marks one more cell exactly when the move is accepted. -/
theorem playStep_markCount (s : TicTacToe) (n : Int)
    (hP : s.currentPlayer = 'X' ∨ s.currentPlayer = 'O') :
    ∃ s1 out, playStep s n = some (s1, out)
      ∧ markCount s1.board = markCount s.board + (if accepted s n = true then 1 else 0) := by
  rcases playStep_cases s n with ⟨hacc, out, hstep⟩ | ⟨hacc, i, j, _, he, hstep⟩
  · exact ⟨s, out, hstep, by simp [hacc]⟩
  · have hmark := markCount_placeMark s i j hP he
    by_cases hwd : (checkWin (placeMark s i j) || checkDraw (placeMark s i j)) = true
    · rw [if_pos hwd] at hstep
      exact ⟨_, _, hstep, by simpa [hacc] using hmark⟩
    · rw [if_neg hwd] at hstep
      exact ⟨_, _, hstep, by simpa [hacc] using hmark⟩

/-- C18: from the initial state the loop returns on every list of positions; the number of
marked cells equals the number of accepted moves, so each accepted move marks exactly one more
cell; at most 9 moves are accepted; after the ninth `gameEnded` is true; and whenever
`gameEnded` is true the board shows a win for the current player or is full. The next loop
body again marks one more cell exactly when its move is accepted. -/
theorem round_bounded (moves : List Int) (n : Int) :
    ∃ s k, runMoves initial moves = some (s, k)
      ∧ markCount s.board = k ∧ k ≤ 9
      ∧ (k = 9 → s.gameEnded = true)
      ∧ (s.gameEnded = true → checkWin s = true ∨ checkDraw s = true)
      ∧ (∃ s1 out, playStep s n = some (s1, out)
          ∧ markCount s1.board = markCount s.board + (if accepted s n = true then 1 else 0)) := by
  obtain ⟨s, k, hrun, _, _⟩ := runMoves_consistent moves initial consistent_initial
  obtain ⟨hc, hm⟩ := reachable_consistent moves s k hrun
  obtain ⟨hP, _, hopen, hclosed⟩ := hc
  refine ⟨s, k, hrun, hm, hm ▸ markCount_le s.board, fun h9 => ?_,
    fun hend => (hclosed hend).1, playStep_markCount s n hP⟩
  by_contra hend
  have hd := (hopen (by simpa using hend)).2.1
  have hfull : checkDraw s = true :=
    checkDraw_of_full s ((markCount_eq_nine s.board).1 (by omega))
  rw [hd] at hfull
  exact absurd hfull (by decide)

/-- C19: in every state the loop reaches from the initial state, X has as many marks as O or
one more; while `gameEnded` is false, `currentPlayer` is `X` exactly when the two counts are
equal and `O` exactly when X has one more. -/
theorem mark_count_invariant (moves : List Int) (s : TicTacToe) (k : Nat)
    (hreach : runMoves initial moves = some (s, k)) :
    (countMark s.board 'X' = countMark s.board 'O'
        ∨ countMark s.board 'X' = countMark s.board 'O' + 1)
      ∧ (s.gameEnded = false →
          (s.currentPlayer = 'X' ↔ countMark s.board 'X' = countMark s.board 'O')
          ∧ (s.currentPlayer = 'O' ↔ countMark s.board 'X' = countMark s.board 'O' + 1)) := by
  obtain ⟨⟨hP, _, hopen, hclosed⟩, _⟩ := reachable_consistent moves s k hreach
  constructor
  · by_cases hend : s.gameEnded = true
    · have := (hclosed hend).2
      split at this <;> omega
    · have := (hopen (by simpa using hend)).2.2
      split at this <;> omega
  · intro hrun
    have hcount := (hopen hrun).2.2
    rcases hP with h | h
    · simp only [h, if_true] at hcount
      have hxo : ¬ ('X' = 'O') := by decide
      simp only [h, hxo, true_iff, false_iff]
      omega
    · have hox : ¬ ('O' = 'X') := by decide
      simp only [h, hox, if_false] at hcount
      simp only [h, hox, true_iff, false_iff]
      omega

/-- C19 after the moves 1, 2, 5, 4: two marks each and X to move. -/
theorem mark_count_invariant_witness :
    runMoves initial [1, 2, 5, 4] = some (diagonalPending, 4)
      ∧ (countMark diagonalPending.board 'X' = countMark diagonalPending.board 'O'
          ∨ countMark diagonalPending.board 'X' = countMark diagonalPending.board 'O' + 1)
      ∧ (diagonalPending.gameEnded = false →
          (diagonalPending.currentPlayer = 'X'
            ↔ countMark diagonalPending.board 'X' = countMark diagonalPending.board 'O')
          ∧ (diagonalPending.currentPlayer = 'O'
            ↔ countMark diagonalPending.board 'X' = countMark diagonalPending.board 'O' + 1)) :=
  ⟨runMoves_diagonalPending,
    mark_count_invariant [1, 2, 5, 4] diagonalPending 4 runMoves_diagonalPending⟩

/-- C20: in every state the loop reaches from the initial state in which the game has ended in
a tie (`checkWin` false and `checkDraw` true), exactly 9 moves were accepted, the board holds
5 `X` and 4 `O`, and `currentPlayer` is `X`. -/
theorem draw_only_by_fifth_X (moves : List Int) (s : TicTacToe) (k : Nat)
    (hreach : runMoves initial moves = some (s, k))
    (hend : s.gameEnded = true) (_hwin : checkWin s = false) (hdraw : checkDraw s = true) :
    k = 9 ∧ countMark s.board 'X' = 5 ∧ countMark s.board 'O' = 4
      ∧ s.currentPlayer = 'X' := by
  obtain ⟨⟨hP, _, _, hclosed⟩, hm⟩ := reachable_consistent moves s k hreach
  have h9 : markCount s.board = 9 := (markCount_eq_nine s.board).2 ((checkDraw_full s).1 hdraw)
  have hsum := markCount_eq_counts s.board
  have hcount := (hclosed hend).2
  rcases hP with h | h
  · simp only [h, if_true] at hcount
    exact ⟨by omega, by omega, by omega, h⟩
  · have hox : ¬ ('O' = 'X') := by decide
    simp only [h, hox, if_false] at hcount
    omega

/-- C20 on the game 1, 2, 3, 5, 4, 6, 8, 7, 9, which fills the board without a line. -/
theorem draw_only_by_fifth_X_witness :
    runMoves initial [1, 2, 3, 5, 4, 6, 8, 7, 9] = some (drawnGame, 9)
      ∧ drawnGame.gameEnded = true ∧ checkWin drawnGame = false ∧ checkDraw drawnGame = true
      ∧ (9 = 9 ∧ countMark drawnGame.board 'X' = 5 ∧ countMark drawnGame.board 'O' = 4
        ∧ drawnGame.currentPlayer = 'X') :=
  ⟨runMoves_drawnGame, rfl, by decide, by decide,
    draw_only_by_fifth_X [1, 2, 3, 5, 4, 6, 8, 7, 9] drawnGame 9 runMoves_drawnGame rfl
      (by decide) (by decide)⟩

/-! ## The shape of the board and the move source -/

/-- The loop body leaves a cell as it was or writes the mark of the player to move. -/
theorem playStep_cell (s : TicTacToe) (n : Int) (i j : Fin 3) :
    ∃ s1 out, playStep s n = some (s1, out)
      ∧ (s1.board i j = s.board i j ∨ s1.board i j = s.currentPlayer) := by
  rcases playStep_cases s n with ⟨_, out, hstep⟩ | ⟨_, i2, j2, _, _, hstep⟩
  · exact ⟨s, out, hstep, Or.inl rfl⟩
  · have hcell : (placeMark s i2 j2).board i j = s.board i j
        ∨ (placeMark s i2 j2).board i j = s.currentPlayer := by
      simp only [placeMark, setCell]
      split
      · exact Or.inr rfl
      · exact Or.inl rfl
    by_cases hwd : (checkWin (placeMark s i2 j2) || checkDraw (placeMark s i2 j2)) = true
    · rw [if_pos hwd] at hstep
      exact ⟨_, _, hstep, hcell⟩
    · rw [if_neg hwd] at hstep
      exact ⟨_, _, hstep, hcell⟩

/-- Through the loop every cell holds `X`, `O` or what it held at the start. -/
theorem runMoves_cell (moves : List Int) (s : TicTacToe) (hc : Consistent s) (i j : Fin 3) :
    ∃ s2 k, runMoves s moves = some (s2, k)
      ∧ (s2.board i j = 'X' ∨ s2.board i j = 'O' ∨ s2.board i j = s.board i j) := by
  induction moves generalizing s with
  | nil => exact ⟨s, 0, rfl, Or.inr (Or.inr rfl)⟩
  | cons m rest ih =>
    by_cases hend : s.gameEnded = true
    · exact ⟨s, 0, runMoves_ended s _ hend, Or.inr (Or.inr rfl)⟩
    · obtain ⟨s1, out, hstep, hc1, _⟩ := playStep_consistent s m hc (by simpa using hend)
      obtain ⟨s1b, outb, hstepb, hcell⟩ := playStep_cell s m i j
      rw [hstep] at hstepb
      simp only [Option.some.injEq, Prod.mk.injEq] at hstepb
      obtain ⟨rfl, _⟩ := hstepb
      obtain ⟨s2, k, hrun, h2⟩ := ih s1 hc1
      refine ⟨s2, k + (if accepted s m = true then 1 else 0), ?_, ?_⟩
      · simp [runMoves, hend, hstep, hrun]
      · rcases h2 with h | h | h
        · exact Or.inl h
        · exact Or.inr (Or.inl h)
        · rcases hcell with h1 | h1
          · exact Or.inr (Or.inr (h.trans h1))
          · rw [h, h1]
            rcases hc.1 with hx | ho
            · exact Or.inl hx
            · exact Or.inr (Or.inl ho)

/-- The cell of position `n` on the fresh board shows the digit of `n`. -/
theorem initial_cell (n : Int) (h1 : 1 ≤ n) (h9 : n ≤ 9) :
    cellOfPos initial.board n = some (digitOf n) := by
  interval_cases n <;> decide

/-- No digit is a mark. -/
theorem digitOf_ne_mark (n : Int) (h1 : 1 ≤ n) (h9 : n ≤ 9) :
    digitOf n ≠ 'X' ∧ digitOf n ≠ 'O' := by
  interval_cases n <;> decide

/-- What `showBoard` prints: the nine cells as they are, row by row. -/
theorem showBoard_cells (s : TicTacToe) :
    showBoard s =
      "\n " ++ String.singleton (s.board 0 0) ++ " | " ++ String.singleton (s.board 0 1)
        ++ " | " ++ String.singleton (s.board 0 2) ++ "\n---+---+---\n "
        ++ String.singleton (s.board 1 0) ++ " | " ++ String.singleton (s.board 1 1)
        ++ " | " ++ String.singleton (s.board 1 2) ++ "\n---+---+---\n "
        ++ String.singleton (s.board 2 0) ++ " | " ++ String.singleton (s.board 2 1)
        ++ " | " ++ String.singleton (s.board 2 2) ++ "\n\n" := by
  apply String.ext
  simp [showBoard, showRow]

/-- C21: in every state the loop reaches from the initial state, the cell of each position `n`
from 1 to 9 holds `X`, `O` or the digit of `n`, one of `'1'..'9'`; so the cell is empty, and
`isMoveValid` accepts `n`, exactly when it still shows the digit of `n`; and `showBoard` prints
the nine cells as they are. -/
theorem board_shows_marks_or_digits (moves : List Int) (s : TicTacToe) (k : Nat) (n : Int)
    (hreach : runMoves initial moves = some (s, k)) (h1 : 1 ≤ n) (h9 : n ≤ 9) :
    ∃ c, cellOfPos s.board n = some c
      ∧ (c = 'X' ∨ c = 'O' ∨ c = digitOf n)
      ∧ ('1' ≤ digitOf n ∧ digitOf n ≤ '9')
      ∧ ((c ≠ 'X' ∧ c ≠ 'O') ↔ c = digitOf n)
      ∧ (isMoveValid s n = some true ↔ c = digitOf n)
      ∧ showBoard s =
          "\n " ++ String.singleton (s.board 0 0) ++ " | " ++ String.singleton (s.board 0 1)
            ++ " | " ++ String.singleton (s.board 0 2) ++ "\n---+---+---\n "
            ++ String.singleton (s.board 1 0) ++ " | " ++ String.singleton (s.board 1 1)
            ++ " | " ++ String.singleton (s.board 1 2) ++ "\n---+---+---\n "
            ++ String.singleton (s.board 2 0) ++ " | " ++ String.singleton (s.board 2 1)
            ++ " | " ++ String.singleton (s.board 2 2) ++ "\n\n" := by
  obtain ⟨i, j, hij⟩ := getMoveCoordinates_range n h1 h9
  obtain ⟨s2, k2, hrun, hcell⟩ := runMoves_cell moves initial consistent_initial i j
  rw [hrun] at hreach
  simp only [Option.some.injEq, Prod.mk.injEq] at hreach
  obtain ⟨rfl, _⟩ := hreach
  have hinit : initial.board i j = digitOf n := by
    have h := initial_cell n h1 h9
    rw [cellOfPos_cell initial.board n i j hij] at h
    exact Option.some.inj h
  rw [hinit] at hcell
  obtain ⟨hdx, hdo⟩ := digitOf_ne_mark n h1 h9
  have hempty : (s2.board i j ≠ 'X' ∧ s2.board i j ≠ 'O') ↔ s2.board i j = digitOf n := by
    constructor
    · rintro ⟨hx, ho⟩
      rcases hcell with h | h | h
      · exact absurd h hx
      · exact absurd h ho
      · exact h
    · intro h
      rw [h]
      exact ⟨hdx, hdo⟩
  refine ⟨s2.board i j, cellOfPos_cell s2.board n i j hij, hcell, ?_, hempty, ?_,
    showBoard_cells s2⟩
  · interval_cases n <;> decide
  · rw [← hempty]
    simp only [isMoveValid, hij, readCell_cast, Option.some.injEq, Bool.and_eq_true,
      bne_iff_ne, ne_eq]

/-- C21 after the moves 1, 2, 5, 4 at position 3, whose cell still shows `'3'`. -/
theorem board_shows_marks_or_digits_witness :
    runMoves initial [1, 2, 5, 4] = some (diagonalPending, 4)
      ∧ ∃ c, cellOfPos diagonalPending.board 3 = some c
        ∧ (c = 'X' ∨ c = 'O' ∨ c = digitOf 3)
        ∧ ('1' ≤ digitOf 3 ∧ digitOf 3 ≤ '9')
        ∧ ((c ≠ 'X' ∧ c ≠ 'O') ↔ c = digitOf 3)
        ∧ (isMoveValid diagonalPending 3 = some true ↔ c = digitOf 3)
        ∧ showBoard diagonalPending =
            "\n " ++ String.singleton (diagonalPending.board 0 0) ++ " | "
              ++ String.singleton (diagonalPending.board 0 1)
              ++ " | " ++ String.singleton (diagonalPending.board 0 2) ++ "\n---+---+---\n "
              ++ String.singleton (diagonalPending.board 1 0) ++ " | "
              ++ String.singleton (diagonalPending.board 1 1)
              ++ " | " ++ String.singleton (diagonalPending.board 1 2) ++ "\n---+---+---\n "
              ++ String.singleton (diagonalPending.board 2 0) ++ " | "
              ++ String.singleton (diagonalPending.board 2 1)
              ++ " | " ++ String.singleton (diagonalPending.board 2 2) ++ "\n\n" :=
  ⟨runMoves_diagonalPending,
    board_shows_marks_or_digits [1, 2, 5, 4] diagonalPending 4 3 runMoves_diagonalPending
      (by decide) (by decide)⟩

/-- What `getMove` returns is the first integer from 1 to 9 among the read attempts: all the
attempts before it failed or were out of range, and the input left is what follows it. -/
theorem getMove_first_valid (prompt : String) (input : List (Option Int)) (m : Int)
    (left : List (Option Int)) (out : String)
    (h : MoveValidator.getMove prompt input = some (m, left, out)) :
    (1 ≤ m ∧ m ≤ 9)
      ∧ ∃ skipped, input = skipped ++ some m :: left
        ∧ ∀ a ∈ skipped, a = none ∨ ∃ v, a = some v ∧ (v < 1 ∨ v > 9) := by
  induction input generalizing out with
  | nil => simp [MoveValidator.getMove] at h
  | cons a rest ih =>
    cases a with
    | none =>
      simp only [MoveValidator.getMove] at h
      split at h
      · simp at h
      · rename_i m2 l2 o2 heq
        simp only [Option.some.injEq, Prod.mk.injEq] at h
        obtain ⟨rfl, rfl, _⟩ := h
        obtain ⟨hm, skipped, hs, hall⟩ := ih o2 heq
        refine ⟨hm, none :: skipped, by rw [hs]; rfl, ?_⟩
        intro a ha
        rcases List.mem_cons.1 ha with rfl | ha
        · exact Or.inl rfl
        · exact hall a ha
    | some v =>
      simp only [MoveValidator.getMove] at h
      split at h
      · rename_i hv
        split at h
        · simp at h
        · rename_i m2 l2 o2 heq
          simp only [Option.some.injEq, Prod.mk.injEq] at h
          obtain ⟨rfl, rfl, _⟩ := h
          obtain ⟨hm, skipped, hs, hall⟩ := ih o2 heq
          refine ⟨hm, some v :: skipped, by rw [hs]; rfl, ?_⟩
          intro a ha
          rcases List.mem_cons.1 ha with rfl | ha
          · exact Or.inr ⟨v, rfl, hv⟩
          · exact hall a ha
      · rename_i hv
        simp only [Option.some.injEq, Prod.mk.injEq] at h
        obtain ⟨rfl, rfl, _⟩ := h
        exact ⟨by omega, [], rfl, fun a ha => absurd ha (List.not_mem_nil a)⟩

/-- The validator returns exactly when some read attempt yields an integer from 1 to 9, and
then hands back the first of them. -/
theorem getMove_validMoves (prompt : String) (input : List (Option Int)) :
    (MoveValidator.getMove prompt input).map (fun r => r.1) = (validMoves input).head? := by
  induction input with
  | nil => rfl
  | cons a rest ih =>
    cases a with
    | none =>
      simp only [MoveValidator.getMove, validMoves]
      rw [← ih]
      cases MoveValidator.getMove prompt rest <;> rfl
    | some v =>
      simp only [MoveValidator.getMove, validMoves]
      split
      · rw [← ih]
        cases MoveValidator.getMove prompt rest <;> rfl
      · rfl

theorem validMoves_range (input : List (Option Int)) :
    ∀ v ∈ validMoves input, 1 ≤ v ∧ v ≤ 9 := by
  induction input with
  | nil => simp [validMoves]
  | cons a rest ih =>
    cases a with
    | none => simpa [validMoves] using ih
    | some m =>
      simp only [validMoves]
      split
      · exact ih
      · intro v hv
        rcases List.mem_cons.1 hv with rfl | hv
        · omega
        · exact ih v hv

/-- One turn of the loop of `play` while the game has not ended. -/
theorem play_unfold (s : TicTacToe) (input : List (Option Int)) (hs : s.gameEnded = false) :
    play s input =
      match MoveValidator.getMove (promptText s) input with
      | none => none
      | some (move, left, out1) =>
        match playStep s move with
        | none => none
        | some (s1, out2) =>
          match play s1 left with
          | none => none
          | some (s2, out3) => some (s2, out1 ++ out2 ++ out3) := by
  conv_lhs => rw [play]
  simp only [hs, Bool.false_eq_true, if_false]
  split
  · rename_i heq
    rw [heq]
  · rename_i move left o1 heq
    rw [heq]

/-- A failed or out-of-range read attempt changes the text `play` prints, not the state it
returns with. -/
theorem play_skip (s : TicTacToe) (a : Option Int) (rest : List (Option Int))
    (ha : a = none ∨ ∃ v, a = some v ∧ (v < 1 ∨ v > 9)) :
    (play s (a :: rest)).map (fun r => r.1) = (play s rest).map (fun r => r.1) := by
  by_cases hend : s.gameEnded = true
  · rw [play_ended s _ hend, play_ended s _ hend]
  · have hs : s.gameEnded = false := by simpa using hend
    have hget : MoveValidator.getMove (promptText s) (a :: rest)
        = match MoveValidator.getMove (promptText s) rest with
          | none => none
          | some (move, left, out) =>
            some (move, left, promptText s ++ MoveValidator.retryText ++ out) := by
      rcases ha with rfl | ⟨v, rfl, hv⟩
      · simp only [MoveValidator.getMove]
      · simp only [MoveValidator.getMove, hv, if_true]
    rw [play_unfold s (a :: rest) hs, play_unfold s rest hs, hget]
    rcases MoveValidator.getMove (promptText s) rest with _ | ⟨move, left, out⟩
    · rfl
    · simp only
      rcases playStep s move with _ | ⟨s1, out2⟩
      · rfl
      · simp only
        rcases play s1 left with _ | ⟨s2, out3⟩
        · rfl
        · rfl

/-- The state `play` returns with is the state the loop body reaches on the integers from 1 to
9 of the input, handed over in order until the game has ended; `play` does not return when
they run out first. -/
theorem play_state (input : List (Option Int)) (s : TicTacToe) :
    (play s input).map (fun r => r.1)
      = (runMoves s (validMoves input)).bind
          (fun r => if r.1.gameEnded = true then some r.1 else none) := by
  induction input generalizing s with
  | nil =>
    by_cases hend : s.gameEnded = true
    · rw [play_ended s _ hend]
      simp [validMoves, runMoves, hend]
    · have hs : s.gameEnded = false := by simpa using hend
      rw [play_unfold s [] hs]
      simp [MoveValidator.getMove, validMoves, runMoves, hs]
  | cons a rest ih =>
    by_cases hskip : a = none ∨ ∃ v, a = some v ∧ (v < 1 ∨ v > 9)
    · rw [play_skip s a rest hskip, ih s]
      rcases hskip with rfl | ⟨v, rfl, hv⟩
      · rfl
      · simp only [validMoves, hv, if_true]
    · obtain ⟨m, rfl, h1, h9⟩ : ∃ m, a = some m ∧ 1 ≤ m ∧ m ≤ 9 := by
        cases a with
        | none => exact absurd (Or.inl rfl) hskip
        | some m =>
          refine ⟨m, rfl, ?_⟩
          by_contra hm
          exact hskip (Or.inr ⟨m, rfl, by omega⟩)
      have hv : ¬ (m < 1 ∨ m > 9) := by omega
      by_cases hend : s.gameEnded = true
      · rw [play_ended s _ hend, runMoves_ended s _ hend]
        simp [hend]
      · have hs : s.gameEnded = false := by simpa using hend
        rw [play_valid_move s m rest hs h1 h9]
        simp only [validMoves, hv, if_false, runMoves, hs, Bool.false_eq_true]
        rcases playStep s m with _ | ⟨s1, out2⟩
        · rfl
        · simp only
          have ih1 := ih s1
          rcases hp : play s1 rest with _ | ⟨s2, out3⟩
          · rw [hp] at ih1
            rcases hr : runMoves s1 (validMoves rest) with _ | ⟨s3, k⟩
            · rfl
            · rw [hr] at ih1
              simpa using ih1
          · rw [hp] at ih1
            rcases hr : runMoves s1 (validMoves rest) with _ | ⟨s3, k⟩
            · rw [hr] at ih1
              simp at ih1
            · rw [hr] at ih1
              simpa using ih1

/-- C22: with the console a list of read attempts, when `getMove` returns a move `m` it is from
1 to 9 and is the first such integer of the input: every attempt before it failed or was out
of range and was skipped. So `getMoveCoordinates` succeeds on it and `makeMove` does not take
its out-of-range branch; the moves `play` hands to the loop body are the integers from 1 to 9
of the input, in order, and the state `play` returns with is the one the loop body reaches on
them. -/
theorem getMove_supplies_valid_moves (prompt : String) (input : List (Option Int)) (m : Int)
    (left : List (Option Int)) (out : String) (s : TicTacToe)
    (h : MoveValidator.getMove prompt input = some (m, left, out)) :
    (1 ≤ m ∧ m ≤ 9)
      ∧ (∃ skipped, input = skipped ++ some m :: left
          ∧ ∀ a ∈ skipped, a = none ∨ ∃ v, a = some v ∧ (v < 1 ∨ v > 9))
      ∧ (validMoves input).head? = some m
      ∧ getMoveCoordinates m ≠ none
      ∧ makeMove s m ≠ some (false, s, "")
      ∧ (∀ v ∈ validMoves input, (1 ≤ v ∧ v ≤ 9) ∧ getMoveCoordinates v ≠ none
          ∧ makeMove s v ≠ some (false, s, ""))
      ∧ (play s input).map (fun r => r.1)
          = (runMoves s (validMoves input)).bind
              (fun r => if r.1.gameEnded = true then some r.1 else none) := by
  have hbranch : ∀ v : Int, 1 ≤ v → v ≤ 9 →
      getMoveCoordinates v ≠ none ∧ makeMove s v ≠ some (false, s, "") := by
    intro v h1 h9
    obtain ⟨i, j, hij⟩ := getMoveCoordinates_range v h1 h9
    refine ⟨by rw [hij]; exact Option.some_ne_none _, ?_⟩
    rw [makeMove_cell s v i j hij]
    split
    · intro hc
      simp only [Option.some.injEq, Prod.mk.injEq] at hc
      exact absurd hc.1 (by decide)
    · intro hc
      simp only [Option.some.injEq, Prod.mk.injEq] at hc
      exact absurd hc.2.2 (by decide)
  obtain ⟨hm, hskip⟩ := getMove_first_valid prompt input m left out h
  have hhead := getMove_validMoves prompt input
  rw [h] at hhead
  refine ⟨hm, hskip, hhead.symm, (hbranch m hm.1 hm.2).1, (hbranch m hm.1 hm.2).2,
    fun v hv => ?_, play_state input s⟩
  have hr := validMoves_range input v hv
  exact ⟨hr, hbranch v hr.1 hr.2⟩

/-- C22 on a console where a failed read, 12 and 0 come before 5 and 7: `getMove` returns 5,
after three retries, and leaves 7 in the input. -/
theorem getMove_supplies_valid_moves_witness :
    MoveValidator.getMove (promptText initial) [none, some 12, some 0, some 5, some 7]
        = some (5, [some 7],
            promptText initial ++ MoveValidator.retryText
              ++ (promptText initial ++ MoveValidator.retryText
                ++ (promptText initial ++ MoveValidator.retryText ++ promptText initial)))
      ∧ (1 ≤ (5 : Int) ∧ (5 : Int) ≤ 9)
      ∧ (∃ skipped, [none, some 12, some 0, some 5, some 7] = skipped ++ some 5 :: [some 7]
          ∧ ∀ a ∈ skipped, a = none ∨ ∃ v : Int, a = some v ∧ (v < 1 ∨ v > 9))
      ∧ (validMoves [none, some 12, some 0, some 5, some 7]).head? = some 5
      ∧ getMoveCoordinates 5 ≠ none
      ∧ makeMove initial 5 ≠ some (false, initial, "")
      ∧ (∀ v ∈ validMoves [none, some 12, some 0, some 5, some 7],
          (1 ≤ v ∧ v ≤ 9) ∧ getMoveCoordinates v ≠ none
          ∧ makeMove initial v ≠ some (false, initial, ""))
      ∧ (play initial [none, some 12, some 0, some 5, some 7]).map (fun r => r.1)
          = (runMoves initial (validMoves [none, some 12, some 0, some 5, some 7])).bind
              (fun r => if r.1.gameEnded = true then some r.1 else none) :=
  ⟨rfl, getMove_supplies_valid_moves (promptText initial)
    [none, some 12, some 0, some 5, some 7] 5 [some 7] _ initial rfl⟩
